import Mathlib

/-!
Verification development for the NAF_AC4 lab repository.

Part A models the JSON data handled by the scripts: a JSON value type, a
serializer mirroring Python's `json.dumps` (default separators, integer
numbers), and a parser mirroring Python's `json.loads` on the fragment the
repository exchanges (objects, arrays, strings with escapes, integers,
literals).  Part B models the MCP client in `src/MCP/Lab01/agent.py`
(`recv`, the id-matching loop of `tools_call`/`tools_list`, the result
unwrapping, `_next_id`, the teardown in `main`) and the `multiply` tool of
`src/MCP/Lab01/server.py`.  Part C models `extract_json` of
`src/RAG/Lab04/network_buddy.py`.  The theorems at the end settle the
claims about those functions.
-/

/-- JSON values as exchanged by the scripts.  Numbers are modelled as
integers (the repository's wire traffic in the claims uses integer
payloads); objects are association lists in insertion order, mirroring a
Python `dict`. -/
inductive Json where
  | null : Json
  | bool (b : Bool) : Json
  | num (n : Int) : Json
  | str (s : String) : Json
  | arr (xs : List Json) : Json
  | obj (kvs : List (String × Json)) : Json
deriving Inhabited

mutual
/-- Node-count measure of a JSON value, used to bound the parser fuel. -/
def Json.size : Json → Nat
  | .arr xs => 1 + Json.sizeL xs
  | .obj kvs => 1 + Json.sizeKV kvs
  | _ => 1

def Json.sizeL : List Json → Nat
  | [] => 0
  | x :: xs => 1 + Json.size x + Json.sizeL xs

def Json.sizeKV : List (String × Json) → Nat
  | [] => 0
  | (_, v) :: r => 1 + Json.size v + Json.sizeKV r
end

/-- Decimal digit character for a value below ten. -/
def digitChar (d : Nat) : Char := Char.ofNat (48 + d)

/-- Numeric value of a decimal digit character. -/
def dval (c : Char) : Nat := c.toNat - 48

/-- Big-endian decimal digits of a natural number, fuel-driven so that it
is structural (and hence kernel-computable).  `natToDigitsAux fuel n acc`
prepends the digits of `n` to `acc`, assuming `n < fuel`. -/
def natToDigitsAux : Nat → Nat → List Char → List Char
  | 0, _, acc => acc
  | fuel + 1, n, acc =>
    if n = 0 then acc else natToDigitsAux fuel (n / 10) (digitChar (n % 10) :: acc)

/-- Decimal rendering of a natural number, as Python's `str` produces it. -/
def natToDigits (n : Nat) : List Char :=
  if n = 0 then ['0'] else natToDigitsAux (n + 1) n []

/-- Decimal rendering of an integer, as Python's `str` produces it. -/
def serInt (n : Int) : List Char :=
  if n < 0 then '-' :: natToDigits n.natAbs else natToDigits n.toNat

/-- String-escape of one character, as `json.dumps` emits it.  (The `\uXXXX`
escapes that `dumps` uses for control and non-ASCII characters are
abstracted away: other characters are emitted literally.) -/
def escapeChar (c : Char) : List Char :=
  if c = '"' then ['\\', '"']
  else if c = '\\' then ['\\', '\\']
  else if c = '\n' then ['\\', 'n']
  else if c = '\t' then ['\\', 't']
  else if c = '\r' then ['\\', 'r']
  else [c]

/-- String-escape of a character list. -/
def escapeList : List Char → List Char
  | [] => []
  | c :: t => escapeChar c ++ escapeList t

/-- Serialized form of a JSON string, including the surrounding quotes. -/
def serStr (s : String) : List Char := '"' :: escapeList s.data ++ ['"']

mutual
/-- Serializer modelling Python's `json.dumps` with its default separators
`", "` and `": "`. -/
def serialize : Json → List Char
  | .null => ("null").data
  | .bool true => ("true").data
  | .bool false => ("false").data
  | .num n => serInt n
  | .str s => serStr s
  | .arr xs => '[' :: serArr xs ++ [']']
  | .obj kvs => '{' :: serObj kvs ++ ['}']

def serArr : List Json → List Char
  | [] => []
  | [x] => serialize x
  | x :: y :: t => serialize x ++ ',' :: ' ' :: serArr (y :: t)

def serObj : List (String × Json) → List Char
  | [] => []
  | [(k, v)] => serStr k ++ ':' :: ' ' :: serialize v
  | (k, v) :: p :: t => serStr k ++ ':' :: ' ' :: serialize v ++ ',' :: ' ' :: serObj (p :: t)
end

/-- JSON whitespace recognised by `json.loads`. -/
def isWs (c : Char) : Bool := c = ' ' || c = '\t' || c = '\n' || c = '\r'

/-- Drop leading JSON whitespace. -/
def skipWs (cs : List Char) : List Char := cs.dropWhile isWs

/-- Does the list start with the given character? -/
def headIs (c : Char) (cs : List Char) : Bool :=
  match cs with
  | [] => false
  | d :: _ => d = c

/-- Does the list start with a decimal digit? -/
def headDigit (cs : List Char) : Bool :=
  match cs with
  | [] => false
  | d :: _ => d.isDigit

/-- Value of an escape character after a backslash (`json.loads` string
escapes; `\uXXXX` is abstracted away). -/
def parseEsc (c : Char) : Option Char :=
  if c = '"' then some '"'
  else if c = '\\' then some '\\'
  else if c = '/' then some '/'
  else if c = 'n' then some '\n'
  else if c = 't' then some '\t'
  else if c = 'r' then some '\r'
  else if c = 'b' then some (Char.ofNat 8)
  else if c = 'f' then some (Char.ofNat 12)
  else none

/-- Parse the body of a JSON string (the opening quote already consumed),
returning the content and the remaining input after the closing quote. -/
def parseStrChars : List Char → Option (List Char × List Char)
  | [] => none
  | c :: rest =>
    if c = '"' then some ([], rest)
    else if c = '\\' then
      match rest with
      | [] => none
      | e :: rest2 =>
        match parseEsc e, parseStrChars rest2 with
        | some ec, some (s, r) => some (ec :: s, r)
        | _, _ => none
    else
      match parseStrChars rest with
      | some (s, r) => some (c :: s, r)
      | none => none

/-- Accumulate the value of a run of decimal digit characters. -/
def digitsToNat (ds : List Char) : Nat :=
  ds.foldl (fun a c => 10 * a + dval c) 0

/-- Parse a nonempty run of decimal digits. -/
def parseDigits (cs : List Char) : Option (Nat × List Char) :=
  let ds := cs.takeWhile Char.isDigit
  if ds.isEmpty then none else some (digitsToNat ds, cs.dropWhile Char.isDigit)

/-- Keyword helper: expect the given characters, then succeed with `v`. -/
def expectKw (pat : List Char) (cs : List Char) (v : Json) : Option (Json × List Char) :=
  if pat.isPrefixOf cs then some (v, cs.drop pat.length) else none

/-- Mode of the combined recursive-descent parser: a single value, the
element list of an array, or the member list of an object. -/
inductive PMode where
  | value : PMode
  | elems : PMode
  | membs : PMode

/-- Recursive-descent JSON parser modelling `json.loads`, combined into one
fuel-structural function so that it is kernel-computable.  In mode `elems`
it returns `Json.arr` of the elements up to the closing bracket, in mode
`membs` `Json.obj` of the members up to the closing brace.  The number
grammar is restricted to integers, matching the traffic this repository
exchanges. -/
def parseF : Nat → PMode → List Char → Option (Json × List Char)
  | 0, _, _ => none
  | fuel + 1, .value, cs =>
    match skipWs cs with
    | [] => none
    | c :: rest =>
      if c = 'n' then expectKw ['u', 'l', 'l'] rest Json.null
      else if c = 't' then expectKw ['r', 'u', 'e'] rest (Json.bool true)
      else if c = 'f' then expectKw ['a', 'l', 's', 'e'] rest (Json.bool false)
      else if c = '"' then
        match parseStrChars rest with
        | some (s, r) => some (Json.str ⟨s⟩, r)
        | none => none
      else if c = '-' then
        match parseDigits rest with
        | some (n, r) => some (Json.num (-(n : Int)), r)
        | none => none
      else if c = '[' then
        if headIs ']' (skipWs rest) then some (Json.arr [], (skipWs rest).tail)
        else parseF fuel .elems rest
      else if c = '{' then
        if headIs '}' (skipWs rest) then some (Json.obj [], (skipWs rest).tail)
        else parseF fuel .membs rest
      else if c.isDigit then
        match parseDigits (c :: rest) with
        | some (n, r) => some (Json.num (n : Int), r)
        | none => none
      else none
  | fuel + 1, .elems, cs =>
    match parseF fuel .value cs with
    | none => none
    | some (v, r) =>
      let r1 := skipWs r
      if headIs ',' r1 then
        match parseF fuel .elems r1.tail with
        | some (Json.arr vs, r2) => some (Json.arr (v :: vs), r2)
        | _ => none
      else if headIs ']' r1 then some (Json.arr [v], r1.tail)
      else none
  | fuel + 1, .membs, cs =>
    match skipWs cs with
    | [] => none
    | c :: rest =>
      if c = '"' then
        match parseStrChars rest with
        | none => none
        | some (k, r) =>
          let r1 := skipWs r
          if headIs ':' r1 then
            match parseF fuel .value r1.tail with
            | none => none
            | some (v, r2) =>
              let r3 := skipWs r2
              if headIs ',' r3 then
                match parseF fuel .membs r3.tail with
                | some (Json.obj kvs, r4) => some (Json.obj ((⟨k⟩, v) :: kvs), r4)
                | _ => none
              else if headIs '}' r3 then some (Json.obj [(⟨k⟩, v)], r3.tail)
              else none
          else none
      else none

/-- Parse one JSON value from the front of the input. -/
def parseValue (fuel : Nat) (cs : List Char) : Option (Json × List Char) :=
  parseF fuel .value cs

/-- Model of `json.loads`: parse a whole document, requiring that nothing
but whitespace follows the value (Python raises `Extra data` otherwise). -/
def jsonLoads (s : String) : Option Json :=
  match parseValue (s.data.length + 1) s.data with
  | some (v, r) => if (skipWs r).isEmpty then some v else none
  | none => none

/-!
Part C: the `extract_json` helper of `src/RAG/Lab04/network_buddy.py`.
-/

/-- One pass of Python's `str.replace(pat, rep)`: left-to-right,
non-overlapping.  Fuel-structural (fuel bounds the input length) so that it
is kernel-computable; with an empty pattern it leaves the text unchanged
(the repository only ever replaces nonempty patterns). -/
def replaceAllF : Nat → List Char → List Char → List Char → List Char
  | 0, _, _, cs => cs
  | fuel + 1, pat, rep, cs =>
    match cs with
    | [] => []
    | c :: rest =>
      if pat.isPrefixOf (c :: rest) && !pat.isEmpty then
        rep ++ replaceAllF fuel pat rep ((c :: rest).drop pat.length)
      else
        c :: replaceAllF fuel pat rep rest

/-- Model of Python's `str.replace` on character lists. -/
def replaceAll (pat rep cs : List Char) : List Char :=
  replaceAllF cs.length pat rep cs

/-- Drop characters until the first opening brace (inclusive); `none` when
there is no opening brace. -/
def dropToOpen : List Char → Option (List Char)
  | [] => none
  | c :: rest => if c = '{' then some (c :: rest) else dropToOpen rest

/-- Keep the prefix of the input ending at the last closing brace; `none`
when there is no closing brace. -/
def keepToLastClose : List Char → Option (List Char)
  | [] => none
  | c :: rest =>
    match keepToLastClose rest with
    | some t => some (c :: t)
    | none => if c = '}' then some [c] else none

/-- The span matched by the greedy regex `\x7b[\s\S]*\x7d` of
`extract_json`: from the first opening brace that precedes the last closing
brace, through that last closing brace. -/
def braceSpan (cs : List Char) : Option (List Char) :=
  match keepToLastClose cs with
  | none => none
  | some t => dropToOpen t

/-- Does the text contain an opening brace followed (strictly later) by a
closing brace? -/
def hasBracePair : List Char → Bool
  | [] => false
  | c :: rest => if c = '{' then rest.contains '}' || hasBracePair rest else hasBracePair rest

/-- Failure kinds of `extract_json`: both are raised as `ValueError` in the
source; `notFound` carries the fence-stripped text and `malformedJson` the
offending brace span (the Python message also embeds the underlying parse
error, which is abstracted away here). -/
inductive ExtractError where
  | notFound (text : String) : ExtractError
  | malformedJson (jsonStr : String) : ExtractError

/-- Model of `extract_json` (src/RAG/Lab04/network_buddy.py:14-37): strip
the fence markers "```json" and "```", greedily match from the first
opening brace to the last closing brace, and parse that span as JSON. -/
def extract_json (text : String) : Except ExtractError Json :=
  let stripped := replaceAll ("```".data) [] (replaceAll ("```json".data) [] text.data)
  match braceSpan stripped with
  | none => .error (.notFound ⟨stripped⟩)
  | some span =>
    match jsonLoads ⟨span⟩ with
    | some v => .ok v
    | none => .error (.malformedJson ⟨span⟩)

/-!
Part B: the MCP client of `src/MCP/Lab01/agent.py` and the `multiply` tool
of `src/MCP/Lab01/server.py`.
-/

/-- First-match association lookup, modelling `dict` access on the decoded
JSON object (keys of a decoded Python dict are unique). -/
def lookupKV : List (String × Json) → String → Option Json
  | [], _ => none
  | (k, v) :: r, key => if k = key then some v else lookupKV r key

/-- Field access on a decoded JSON message: `none` both when the key is
absent and when the message is not an object. -/
def getField (m : Json) (key : String) : Option Json :=
  match m with
  | .obj kvs => lookupKV kvs key
  | _ => none

/-- Does the message carry `"id"` equal to the given request id?  Mirrors
`"id" not in resp` / `resp["id"] != rid` in `tools_call` (and the
equivalent `resp.get("id") == rid` in `tools_list` and `initialize`). -/
def idMatches (rid : Int) (m : Json) : Bool :=
  match getField m "id" with
  | some (.num n) => n == rid
  | _ => false

/-- The receive loop of `tools_call`/`tools_list` (agent.py:112-115 and
128-136) run over the stream of decoded messages: keep reading, discarding
notifications (no `"id"`) and mismatched ids, until a message bearing the
expected id arrives; `none` when the stream is exhausted (in the source the
next `recv` would then block and eventually time out). -/
def matchResponse (rid : Int) : List Json → Option Json
  | [] => none
  | m :: ms => if idMatches rid m then some m else matchResponse rid ms

/-- Failure kinds of a tool call.  `timeout` models the `TimeoutError`
raised by `recv`; `jsonDecodeError` the uncaught `json.JSONDecodeError` of
`json.loads(text_block)`; `keyError`/`typeError` the uncaught exceptions of
`block["text"]` on a malformed block; `protocolError` appears in the spec's
failure taxonomy but is never produced by the code. -/
inductive TCErr where
  | timeout : TCErr
  | jsonDecodeError (text : String) : TCErr
  | keyError (key : String) : TCErr
  | typeError : TCErr
  | protocolError : TCErr

/-- Result unwrapping of `tools_call` (agent.py:138-151) applied to the
matching response: take `result` (defaulting to the empty dict), and if it
carries a nonempty `content` list whose first block has type `"text"`,
parse the block's text payload as JSON; otherwise return `result` as-is. -/
def toolsCallUnwrap (resp : Json) : Except TCErr Json :=
  let result := (getField resp "result").getD (Json.obj [])
  match getField result "content" with
  | some (Json.arr (block :: _)) =>
    match getField block "type" with
    | some (Json.str ty) =>
      if ty = "text" then
        match getField block "text" with
        | some (Json.str t) =>
          match jsonLoads t with
          | some v => .ok v
          | none => .error (.jsonDecodeError t)
        | some _ => .error .typeError
        | none => .error (.keyError "text")
      else .ok result
    | _ => .ok result
  | _ => .ok result

/-- The request object sent by `tools_call` (agent.py:121-126). -/
def toolsCallRequest (rid : Int) (name : String) (arguments : Json) : Json :=
  Json.obj [("jsonrpc", Json.str "2.0"), ("id", Json.num rid),
            ("method", Json.str "tools/call"),
            ("params", Json.obj [("name", Json.str name), ("arguments", arguments)])]

/-- `tools_call` (agent.py:118-151) run over a stream of decoded incoming
messages: loop until the response bearing the request id arrives, then
unwrap its result; an exhausted stream models `recv` timing out. -/
def tools_call (rid : Int) (incoming : List Json) : Except TCErr Json :=
  match matchResponse rid incoming with
  | some resp => toolsCallUnwrap resp
  | none => .error .timeout

/-- Python's `str.strip()` restricted to the whitespace the protocol can
produce. -/
def pyStrip (s : String) : String :=
  ⟨((s.data.dropWhile isWs).reverse.dropWhile isWs).reverse⟩

/-- Outcome of `recv`: a decoded message, or the `TimeoutError` raised when
the while-condition first fails, recorded with the elapsed time observed at
that check. -/
inductive RecvOutcome where
  | msg (j : Json) : RecvOutcome
  | timeoutAt (t : Nat) : RecvOutcome

/-- The `recv` loop (agent.py:48-71) over a trace of reads.  Each trace
entry `(t, line)` gives the elapsed wall-clock time when the loop condition
is checked and the line `readline` then returns ("" models no data, upon
which the source sleeps and retries).  Blank lines are skipped, lines that
fail to parse as JSON are skipped, a parsed line is returned; when the
condition sees `timeout ≤ t` the loop exits and `TimeoutError` is raised.
`none` means the trace ended before the loop decided. -/
def recvGo (timeout : Nat) : List (Nat × String) → Option RecvOutcome
  | [] => none
  | (t, line) :: rest =>
    if t < timeout then
      let s := pyStrip line
      if s.data.isEmpty then recvGo timeout rest
      else
        match jsonLoads s with
        | some j => some (.msg j)
        | none => recvGo timeout rest
    else some (.timeoutAt t)

/-- `recv` with its default timeout of 10 time units. -/
def recv (trace : List (Nat × String)) : Option RecvOutcome := recvGo 10 trace

/-- The id generator `_next_id` (agent.py:31-35): increment the process-wide
counter and return it.  The pair is (new counter state, issued id); the
counter starts at 0. -/
def nextId (s : Nat) : Nat × Nat := (s + 1, s + 1)

/-- Ids issued by `n` successive `_next_id` calls starting from counter
state `s`. -/
def idsFrom (s : Nat) : Nat → List Nat
  | 0 => []
  | n + 1 => (nextId s).2 :: idsFrom (nextId s).1 n

/-- Ids issued by the first `n` requests of a process (counter starts
at 0). -/
def issuedIds (n : Nat) : List Nat := idsFrom 0 n

/-- The child process in teardown, abstracted by how many time units it
needs to exit after `terminate()` is delivered. -/
structure Child where
  exitDelay : Nat

/-- Fate of the child after the cleanup in `main`'s `finally` block. -/
inductive ChildFate where
  | running : ChildFate
  | exited : ChildFate
  | killed : ChildFate

/-- The `finally` block of `main` (agent.py:183-189): `terminate()`, then
`wait(timeout=1)`; if the child has not exited within that grace period the
`TimeoutExpired` is caught and the child is `kill()`ed. -/
def cleanup (c : Child) : ChildFate :=
  if c.exitDelay ≤ 1 then .exited else .killed

/-- `try`/`finally` composition of `main` (agent.py:157-189): whatever the
body's outcome (normal return or raised error), the cleanup runs and its
result is the child's final fate. -/
def runWithCleanup (body : Except TCErr Unit) (c : Child) : Except TCErr Unit × ChildFate :=
  (body, cleanup c)

/-- The `multiply` tool of `src/MCP/Lab01/server.py:16-25` (logging elided):
the returned dict, with Python's f-string rendering of the summary. -/
def multiply (a b : Int) : List (String × Json) :=
  [("a", Json.num a), ("b", Json.num b), ("product", Json.num (a * b)),
   ("summary", Json.str (toString a ++ " × " ++ toString b ++ " = " ++ toString (a * b)))]

/-- Modelled from the spec: the FastMCP server side is not part of the
repository's sources; per §4.1 ("Tool-call result unwrapping") and the
glossary, the tool host wraps the tool's dict as a typed `"text"` content
block whose text payload is the JSON-encoded string of the dict, inside a
JSON-RPC response bearing the request id. -/
def fastMCPToolResponse (rid : Int) (payload : Json) : Json :=
  Json.obj [("jsonrpc", Json.str "2.0"), ("id", Json.num rid),
            ("result", Json.obj [("content",
              Json.arr [Json.obj [("type", Json.str "text"),
                                  ("text", Json.str ⟨serialize payload⟩)]])])]

/-!
Lemmas: characters and whitespace.
-/

theorem digit_ne {c x : Char} (h : c.isDigit = true) (hx : x.isDigit = false) : c ≠ x := by
  intro he
  rw [he, hx] at h
  cases h

theorem digit_not_ws {c : Char} (h : c.isDigit = true) : isWs c = false := by
  unfold isWs
  by_contra hw
  simp only [Bool.not_eq_false, Bool.or_eq_true, decide_eq_true_eq] at hw
  rcases hw with ((h1 | h1) | h1) | h1 <;> subst h1 <;> exact absurd h (by decide)

theorem skipWs_cons_not {c : Char} (h : isWs c = false) (t : List Char) :
    skipWs (c :: t) = c :: t := by
  simp [skipWs, List.dropWhile_cons, h]

theorem skipWs_cons_ws {c : Char} (h : isWs c = true) (t : List Char) :
    skipWs (c :: t) = skipWs t := by
  simp [skipWs, List.dropWhile_cons, h]

/-!
Lemmas: string escaping round-trips through the string parser.
-/

theorem parseStrChars_escape (s : List Char) (rest : List Char) :
    parseStrChars (escapeList s ++ '"' :: rest) = some (s, rest) := by
  induction s with
  | nil =>
    simp only [escapeList, List.nil_append]
    rw [parseStrChars.eq_def]
    rfl
  | cons c t ih =>
    rw [show escapeList (c :: t) = escapeChar c ++ escapeList t from rfl]
    by_cases h1 : c = '"'
    · subst h1
      rw [show escapeChar '"' = ['\\', '"'] from rfl]
      simp only [List.cons_append, List.nil_append, List.append_assoc]
      rw [parseStrChars.eq_def]
      simp [parseEsc, ih]
    · by_cases h2 : c = '\\'
      · subst h2
        rw [show escapeChar '\\' = ['\\', '\\'] from rfl]
        simp only [List.cons_append, List.nil_append, List.append_assoc]
        rw [parseStrChars.eq_def]
        simp [parseEsc, ih]
      · by_cases h3 : c = '\n'
        · subst h3
          rw [show escapeChar '\n' = ['\\', 'n'] from rfl]
          simp only [List.cons_append, List.nil_append, List.append_assoc]
          rw [parseStrChars.eq_def]
          simp [parseEsc, ih]
        · by_cases h4 : c = '\t'
          · subst h4
            rw [show escapeChar '\t' = ['\\', 't'] from rfl]
            simp only [List.cons_append, List.nil_append, List.append_assoc]
            rw [parseStrChars.eq_def]
            simp [parseEsc, ih]
          · by_cases h5 : c = '\r'
            · subst h5
              rw [show escapeChar '\r' = ['\\', 'r'] from rfl]
              simp only [List.cons_append, List.nil_append, List.append_assoc]
              rw [parseStrChars.eq_def]
              simp [parseEsc, ih]
            · rw [show escapeChar c = [c] from by
                simp [escapeChar, h1, h2, h3, h4, h5]]
              simp only [List.cons_append, List.nil_append, List.append_assoc,
                List.singleton_append]
              rw [parseStrChars.eq_def]
              simp [if_neg h1, if_neg h2, ih]

/-!
Lemmas: decimal digits round-trip through the digit parser.
-/

theorem dval_digitChar {d : Nat} (h : d < 10) : dval (digitChar d) = d := by
  interval_cases d <;> decide

theorem isDigit_digitChar {d : Nat} (h : d < 10) : (digitChar d).isDigit = true := by
  interval_cases d <;> decide

theorem natToDigitsAux_irrel :
    ∀ (n f1 f2 : Nat) (acc : List Char), n < f1 → n < f2 →
      natToDigitsAux f1 n acc = natToDigitsAux f2 n acc := by
  intro n
  induction n using Nat.strong_induction_on with
  | _ n IH =>
    intro f1 f2 acc h1 h2
    match f1, f2 with
    | g1 + 1, g2 + 1 =>
      by_cases hn : n = 0
      · subst hn; simp [natToDigitsAux]
      · simp only [natToDigitsAux, if_neg hn]
        exact IH (n / 10) (Nat.div_lt_self (Nat.pos_of_ne_zero hn) (by omega)) g1 g2 _
          (by have := Nat.div_le_self n 10; omega)
          (by have := Nat.div_le_self n 10; omega)

theorem foldl_dval_scale (ys : List Char) (a : Nat) :
    List.foldl (fun x c => 10 * x + dval c) a ys
      = a * 10 ^ ys.length + List.foldl (fun x c => 10 * x + dval c) 0 ys := by
  induction ys generalizing a with
  | nil => simp
  | cons c t ih =>
    simp only [List.foldl_cons, List.length_cons]
    rw [ih (10 * a + dval c), ih (10 * 0 + dval c)]
    ring

theorem natToDigitsAux_value :
    ∀ (n : Nat) (acc : List Char),
      digitsToNat (natToDigitsAux (n + 1) n acc) = n * 10 ^ acc.length + digitsToNat acc := by
  intro n
  induction n using Nat.strong_induction_on with
  | _ n IH =>
    intro acc
    by_cases hn : n = 0
    · subst hn; simp [natToDigitsAux]
    · have hlt : n / 10 < n := Nat.div_lt_self (Nat.pos_of_ne_zero hn) (by omega)
      simp only [natToDigitsAux, if_neg hn]
      rw [natToDigitsAux_irrel (n / 10) n (n / 10 + 1) _ (by omega) (by omega)]
      rw [IH (n / 10) hlt]
      have hmod : n % 10 < 10 := Nat.mod_lt _ (by omega)
      simp only [digitsToNat, List.foldl_cons, List.length_cons]
      rw [foldl_dval_scale _ (10 * 0 + dval (digitChar (n % 10)))]
      rw [dval_digitChar hmod]
      conv_rhs => rw [← Nat.div_add_mod n 10]
      ring

theorem natToDigitsAux_digits :
    ∀ (n : Nat) (acc : List Char), (∀ c ∈ acc, c.isDigit = true) →
      ∀ c ∈ natToDigitsAux (n + 1) n acc, c.isDigit = true := by
  intro n
  induction n using Nat.strong_induction_on with
  | _ n IH =>
    intro acc hacc
    by_cases hn : n = 0
    · subst hn; simpa [natToDigitsAux] using hacc
    · have hlt : n / 10 < n := Nat.div_lt_self (Nat.pos_of_ne_zero hn) (by omega)
      simp only [natToDigitsAux, if_neg hn]
      rw [natToDigitsAux_irrel (n / 10) n (n / 10 + 1) _ (by omega) (by omega)]
      exact IH (n / 10) hlt _ (by
        intro c hc
        rcases List.mem_cons.mp hc with h | h
        · subst h; exact isDigit_digitChar (Nat.mod_lt _ (by omega))
        · exact hacc c h)

theorem natToDigits_digits (n : Nat) : ∀ c ∈ natToDigits n, c.isDigit = true := by
  unfold natToDigits
  by_cases hn : n = 0
  · subst hn; intro c hc; simp at hc; subst hc; decide
  · rw [if_neg hn]; exact natToDigitsAux_digits n [] (by intro c hc; cases hc)

theorem natToDigits_value (n : Nat) : digitsToNat (natToDigits n) = n := by
  unfold natToDigits
  by_cases hn : n = 0
  · subst hn; decide
  · rw [if_neg hn, natToDigitsAux_value n []]
    simp [digitsToNat]

theorem natToDigits_ne_nil (n : Nat) : natToDigits n ≠ [] := by
  intro h
  have := natToDigits_value n
  rw [h] at this
  simp [digitsToNat] at this
  unfold natToDigits at h
  by_cases hn : n = 0
  · subst hn; simp at h
  · exact hn this.symm

theorem takeWhile_append_all {p : Char → Bool} :
    ∀ (xs rest : List Char), (∀ c ∈ xs, p c = true) →
      (∀ r t, rest = r :: t → p r = false) →
      (xs ++ rest).takeWhile p = xs ∧ (xs ++ rest).dropWhile p = rest := by
  intro xs
  induction xs with
  | nil =>
    intro rest _ hrest
    cases rest with
    | nil => simp
    | cons r t => simp [List.takeWhile_cons, List.dropWhile_cons, hrest r t rfl]
  | cons x xs ih =>
    intro rest hall hrest
    have hx : p x = true := hall x (by simp)
    have := ih rest (fun c hc => hall c (by simp [hc])) hrest
    simp [List.takeWhile_cons, List.dropWhile_cons, hx, this.1, this.2]

theorem parseDigits_natToDigits (n : Nat) (rest : List Char)
    (h : headDigit rest = false) :
    parseDigits (natToDigits n ++ rest) = some (n, rest) := by
  have hrest : ∀ r t, rest = r :: t → r.isDigit = false := by
    intro r t hr
    subst hr
    simpa [headDigit] using h
  have hsplit := takeWhile_append_all (natToDigits n) rest (natToDigits_digits n) hrest
  have hne : (natToDigits n).isEmpty = false := by
    cases hnil : natToDigits n with
    | nil => exact absurd hnil (natToDigits_ne_nil n)
    | cons a b => simp
  simp [parseDigits, hsplit.1, hsplit.2, hne, natToDigits_value n]

theorem Json.size_pos (v : Json) : 1 ≤ Json.size v := by
  cases v <;> simp [Json.size]

theorem Json.sizeL_pos {xs : List Json} (h : xs ≠ []) : 1 ≤ Json.sizeL xs := by
  cases xs with
  | nil => exact absurd rfl h
  | cons x t => have := Json.size_pos x; simp [Json.sizeL]; omega

theorem Json.sizeKV_pos {kvs : List (String × Json)} (h : kvs ≠ []) : 1 ≤ Json.sizeKV kvs := by
  cases kvs with
  | nil => exact absurd rfl h
  | cons kv t =>
    obtain ⟨k, v⟩ := kv
    have := Json.size_pos v
    simp [Json.sizeKV]
    omega

/-- Every serialized value starts with a character that is not whitespace,
not a closing bracket and not a closing brace. -/
theorem serialize_head (v : Json) :
    ∃ c t, serialize v = c :: t ∧ isWs c = false ∧ c ≠ ']' ∧ c ≠ '}' := by
  cases v with
  | num n =>
    by_cases hn : n < 0
    · refine ⟨'-', natToDigits n.natAbs, by simp [serialize, serInt, hn], ?_, ?_, ?_⟩ <;> decide
    · obtain ⟨c, t, hct⟩ := List.exists_cons_of_ne_nil (natToDigits_ne_nil n.toNat)
      have hc : c.isDigit = true := natToDigits_digits n.toNat c (by rw [hct]; simp)
      refine ⟨c, t, ?_, digit_not_ws hc, digit_ne hc (by decide), digit_ne hc (by decide)⟩
      simp [serialize, serInt, hn, hct]
  | null => refine ⟨'n', _, rfl, ?_, ?_, ?_⟩ <;> decide
  | bool b =>
    cases b
    case false => refine ⟨'f', _, rfl, ?_, ?_, ?_⟩ <;> decide
    case true => refine ⟨'t', _, rfl, ?_, ?_, ?_⟩ <;> decide
  | str s => refine ⟨'"', _, rfl, ?_, ?_, ?_⟩ <;> decide
  | arr xs => refine ⟨'[', serArr xs ++ [']'], by simp [serialize], ?_, ?_, ?_⟩ <;> decide
  | obj kvs => refine ⟨'{', serObj kvs ++ ['}'], by simp [serialize], ?_, ?_, ?_⟩ <;> decide

/-- The serialized element list of a nonempty array starts with a character
that is not whitespace and not a closing bracket. -/
theorem serArr_head (x : Json) (xs : List Json) :
    ∃ c u, serArr (x :: xs) = c :: u ∧ isWs c = false ∧ c ≠ ']' := by
  obtain ⟨c, t, hct, hws, hbr, _⟩ := serialize_head x
  cases xs with
  | nil => exact ⟨c, t, by simp [serArr, hct], hws, hbr⟩
  | cons y ys => exact ⟨c, t ++ ',' :: ' ' :: serArr (y :: ys), by simp [serArr, hct], hws, hbr⟩

mutual
/-- The parser fuel needed for a value is at most its serialized length
plus one. -/
theorem size_le_ser : (v : Json) → Json.size v ≤ (serialize v).length + 1
  | .null => by simp [Json.size, serialize]
  | .bool b => by cases b <;> simp [Json.size, serialize]
  | .num n => by simp [Json.size, serialize]
  | .str s => by simp [Json.size, serialize]
  | .arr xs => by
    cases xs with
    | nil => simp [Json.size, Json.sizeL, serialize, serArr]
    | cons x t =>
      have h := sizeL_le_serArr (x :: t) (by simp)
      simp only [Json.size, serialize, List.length_append, List.length_cons]
      omega
  | .obj kvs => by
    cases kvs with
    | nil => simp [Json.size, Json.sizeKV, serialize, serObj]
    | cons kv t =>
      have h := sizeKV_le_serObj (kv :: t) (by simp)
      simp only [Json.size, serialize, List.length_append, List.length_cons]
      omega

theorem sizeL_le_serArr : (xs : List Json) → xs ≠ [] → Json.sizeL xs ≤ (serArr xs).length + 2
  | [x], _ => by
    have h := size_le_ser x
    simp only [Json.sizeL, Json.sizeKV, serArr]
    omega
  | x :: y :: t, _ => by
    have h1 := size_le_ser x
    have h2 := sizeL_le_serArr (y :: t) (by simp)
    have h3 : Json.sizeL (y :: t) = 1 + Json.size y + Json.sizeL t := by simp [Json.sizeL]
    simp only [Json.sizeL, serArr, List.length_append, List.length_cons]
    omega

theorem sizeKV_le_serObj :
    (kvs : List (String × Json)) → kvs ≠ [] → Json.sizeKV kvs ≤ (serObj kvs).length + 2
  | [(k, v)], _ => by
    have h := size_le_ser v
    simp only [Json.sizeKV, serObj, List.length_append, List.length_cons]
    omega
  | (k, v) :: p :: t, _ => by
    have h1 := size_le_ser v
    have h2 := sizeKV_le_serObj (p :: t) (by simp)
    have h3 : Json.sizeKV (p :: t) = 1 + Json.size p.2 + Json.sizeKV t := by
      obtain ⟨a, b⟩ := p
      simp [Json.sizeKV]
    simp only [Json.sizeKV, serObj, List.length_append, List.length_cons]
    omega
end

/-- One-step unfolding of the parser in `value` mode at positive fuel. -/
theorem parseF_value_eq (fuel : Nat) (cs : List Char) :
    parseF (fuel + 1) .value cs =
      (match skipWs cs with
      | [] => none
      | c :: rest =>
        if c = 'n' then expectKw ['u', 'l', 'l'] rest Json.null
        else if c = 't' then expectKw ['r', 'u', 'e'] rest (Json.bool true)
        else if c = 'f' then expectKw ['a', 'l', 's', 'e'] rest (Json.bool false)
        else if c = '"' then
          match parseStrChars rest with
          | some (s, r) => some (Json.str ⟨s⟩, r)
          | none => none
        else if c = '-' then
          match parseDigits rest with
          | some (n, r) => some (Json.num (-(n : Int)), r)
          | none => none
        else if c = '[' then
          if headIs ']' (skipWs rest) then some (Json.arr [], (skipWs rest).tail)
          else parseF fuel .elems rest
        else if c = '{' then
          if headIs '}' (skipWs rest) then some (Json.obj [], (skipWs rest).tail)
          else parseF fuel .membs rest
        else if c.isDigit then
          match parseDigits (c :: rest) with
          | some (n, r) => some (Json.num (n : Int), r)
          | none => none
        else none) := by
  rw [parseF.eq_def]

/-- One-step unfolding of the parser in `elems` mode at positive fuel. -/
theorem parseF_elems_eq (fuel : Nat) (cs : List Char) :
    parseF (fuel + 1) .elems cs =
      (match parseF fuel .value cs with
      | none => none
      | some (v, r) =>
        let r1 := skipWs r
        if headIs ',' r1 then
          match parseF fuel .elems r1.tail with
          | some (Json.arr vs, r2) => some (Json.arr (v :: vs), r2)
          | _ => none
        else if headIs ']' r1 then some (Json.arr [v], r1.tail)
        else none) := by
  rw [parseF.eq_def]

/-- One-step unfolding of the parser in `membs` mode at positive fuel. -/
theorem parseF_membs_eq (fuel : Nat) (cs : List Char) :
    parseF (fuel + 1) .membs cs =
      (match skipWs cs with
      | [] => none
      | c :: rest =>
        if c = '"' then
          match parseStrChars rest with
          | none => none
          | some (k, r) =>
            let r1 := skipWs r
            if headIs ':' r1 then
              match parseF fuel .value r1.tail with
              | none => none
              | some (v, r2) =>
                let r3 := skipWs r2
                if headIs ',' r3 then
                  match parseF fuel .membs r3.tail with
                  | some (Json.obj kvs, r4) => some (Json.obj ((⟨k⟩, v) :: kvs), r4)
                  | _ => none
                else if headIs '}' r3 then some (Json.obj [(⟨k⟩, v)], r3.tail)
                else none
            else none
        else none) := by
  rw [parseF.eq_def]

theorem parseF_value_ws (fuel : Nat) {c : Char} (h : isWs c = true) (u : List Char) :
    parseF fuel .value (c :: u) = parseF fuel .value u := by
  cases fuel with
  | zero => rfl
  | succ f => rw [parseF_value_eq, parseF_value_eq, skipWs_cons_ws h]

theorem parseF_elems_ws (fuel : Nat) {c : Char} (h : isWs c = true) (u : List Char) :
    parseF fuel .elems (c :: u) = parseF fuel .elems u := by
  cases fuel with
  | zero => rfl
  | succ f => rw [parseF_elems_eq, parseF_elems_eq, parseF_value_ws f h u]

theorem parseF_membs_ws (fuel : Nat) {c : Char} (h : isWs c = true) (u : List Char) :
    parseF fuel .membs (c :: u) = parseF fuel .membs u := by
  cases fuel with
  | zero => rfl
  | succ f => rw [parseF_membs_eq, parseF_membs_eq, skipWs_cons_ws h]

/-- The serialized member list of a nonempty object starts with a quote. -/
theorem serObj_head (k : String) (v : Json) (t : List (String × Json)) :
    ∃ u, serObj ((k, v) :: t) = '"' :: u := by
  cases t with
  | nil => exact ⟨escapeList k.data ++ ['"'] ++ (':' :: ' ' :: serialize v), by
      simp [serObj, serStr]⟩
  | cons p t' => exact ⟨escapeList k.data ++ ['"'] ++ (':' :: ' ' :: serialize v
      ++ ',' :: ' ' :: serObj (p :: t')), by simp [serObj, serStr]⟩

mutual
/-- Round trip: parsing a serialized value consumes exactly the serialized
characters, provided enough fuel and a non-digit continuation. -/
theorem parseF_value_ser : ∀ (fuel : Nat) (v : Json) (rest : List Char),
    Json.size v ≤ fuel → headDigit rest = false →
    parseF fuel .value (serialize v ++ rest) = some (v, rest)
  | 0, v, rest => by
    intro hsz _
    have := Json.size_pos v
    omega
  | fuel + 1, v, rest => by
    intro hsz hrest
    cases v with
    | null =>
      rw [show serialize Json.null = ['n', 'u', 'l', 'l'] from by simp [serialize]]
      simp only [List.cons_append, List.nil_append]
      rw [parseF_value_eq, skipWs_cons_not (by decide)]
      simp [expectKw, List.isPrefixOf]
    | bool b =>
      cases b with
      | true =>
        rw [show serialize (Json.bool true) = ['t', 'r', 'u', 'e'] from by simp [serialize]]
        simp only [List.cons_append, List.nil_append]
        rw [parseF_value_eq, skipWs_cons_not (by decide)]
        simp [expectKw, List.isPrefixOf]
      | false =>
        rw [show serialize (Json.bool false) = ['f', 'a', 'l', 's', 'e'] from by simp [serialize]]
        simp only [List.cons_append, List.nil_append]
        rw [parseF_value_eq, skipWs_cons_not (by decide)]
        simp [expectKw, List.isPrefixOf]
    | str s =>
      rw [show serialize (Json.str s) ++ rest = '"' :: (escapeList s.data ++ '"' :: rest) from by
        simp [serialize, serStr]]
      rw [parseF_value_eq, skipWs_cons_not (by decide)]
      simp [parseStrChars_escape]
    | num n =>
      by_cases hn : n < 0
      · rw [show serialize (Json.num n) ++ rest = '-' :: (natToDigits n.natAbs ++ rest) from by
          simp [serialize, serInt, hn]]
        rw [parseF_value_eq, skipWs_cons_not (by decide)]
        have hd := parseDigits_natToDigits n.natAbs rest hrest
        simp [hd]
        rw [Int.abs_eq_natAbs]
        omega
      · have hser : serialize (Json.num n) = natToDigits n.toNat := by
          simp [serialize, serInt, hn]
        obtain ⟨c, t, hct⟩ := List.exists_cons_of_ne_nil (natToDigits_ne_nil n.toNat)
        have hcdig : c.isDigit = true := natToDigits_digits _ c (by rw [hct]; simp)
        rw [hser, hct]
        simp only [List.cons_append]
        rw [parseF_value_eq, skipWs_cons_not (digit_not_ws hcdig)]
        have h1 : ¬ c = 'n' := digit_ne hcdig (by decide)
        have h2 : ¬ c = 't' := digit_ne hcdig (by decide)
        have h3 : ¬ c = 'f' := digit_ne hcdig (by decide)
        have h4 : ¬ c = '"' := digit_ne hcdig (by decide)
        have h5 : ¬ c = '-' := digit_ne hcdig (by decide)
        have h6 : ¬ c = '[' := digit_ne hcdig (by decide)
        have h7 : ¬ c = '{' := digit_ne hcdig (by decide)
        have hd : parseDigits (c :: (t ++ rest)) = some (n.toNat, rest) := by
          rw [show c :: (t ++ rest) = natToDigits n.toNat ++ rest from by rw [hct]; simp]
          exact parseDigits_natToDigits n.toNat rest hrest
        have htn : ((n.toNat : Nat) : Int) = n := Int.toNat_of_nonneg (not_lt.mp hn)
        simp [h1, h2, h3, h4, h5, h6, h7, hcdig, hd, htn]
    | arr xs =>
      cases xs with
      | nil =>
        rw [show serialize (Json.arr []) = ['[', ']'] from by simp [serialize, serArr]]
        simp only [List.cons_append, List.nil_append]
        rw [parseF_value_eq, skipWs_cons_not (by decide)]
        simp [skipWs_cons_not, isWs, headIs]
      | cons x xs' =>
        rw [show serialize (Json.arr (x :: xs')) ++ rest
            = '[' :: (serArr (x :: xs') ++ ']' :: rest) from by simp [serialize]]
        rw [parseF_value_eq, skipWs_cons_not (by decide)]
        obtain ⟨c0, u0, hc0, hws0, hbr0⟩ := serArr_head x xs'
        have hcond : headIs ']' (skipWs (serArr (x :: xs') ++ ']' :: rest)) = false := by
          rw [hc0]
          simp only [List.cons_append]
          rw [skipWs_cons_not hws0]
          simp [headIs, hbr0]
        have hsl : Json.sizeL (x :: xs') ≤ fuel := by
          simp only [Json.size] at hsz
          omega
        have helems := parseF_elems_ser fuel (x :: xs') rest (by simp) hsl
        simp [hcond, helems]
    | obj kvs =>
      cases kvs with
      | nil =>
        rw [show serialize (Json.obj []) = ['{', '}'] from by simp [serialize, serObj]]
        simp only [List.cons_append, List.nil_append]
        rw [parseF_value_eq, skipWs_cons_not (by decide)]
        simp [skipWs_cons_not, isWs, headIs]
      | cons kv kvs' =>
        obtain ⟨k, v⟩ := kv
        rw [show serialize (Json.obj ((k, v) :: kvs')) ++ rest
            = '{' :: (serObj ((k, v) :: kvs') ++ '}' :: rest) from by simp [serialize]]
        rw [parseF_value_eq, skipWs_cons_not (by decide)]
        obtain ⟨u0, hc0⟩ := serObj_head k v kvs'
        have hcond : headIs '}' (skipWs (serObj ((k, v) :: kvs') ++ '}' :: rest)) = false := by
          rw [hc0]
          simp only [List.cons_append]
          rw [skipWs_cons_not (by decide)]
          simp [headIs]
        have hsl : Json.sizeKV ((k, v) :: kvs') ≤ fuel := by
          simp only [Json.size] at hsz
          omega
        have hmembs := parseF_membs_ser fuel ((k, v) :: kvs') rest (by simp) hsl
        simp [hcond, hmembs]

termination_by fuel _ _ => fuel

/-- Round trip for nonempty array element lists. -/
theorem parseF_elems_ser : ∀ (fuel : Nat) (xs : List Json) (rest : List Char),
    xs ≠ [] → Json.sizeL xs ≤ fuel →
    parseF fuel .elems (serArr xs ++ ']' :: rest) = some (Json.arr xs, rest)
  | 0, xs, rest => by
    intro hne hsz
    have := Json.sizeL_pos hne
    omega
  | fuel + 1, xs, rest => by
    intro hne hsz
    cases xs with
    | nil => exact absurd rfl hne
    | cons x t =>
      have hxsz : Json.size x ≤ fuel := by
        have ht : 0 ≤ Json.sizeL t := Nat.zero_le _
        simp only [Json.sizeL] at hsz
        omega
      rw [parseF_elems_eq]
      cases t with
      | nil =>
        rw [show serArr [x] ++ ']' :: rest = serialize x ++ ']' :: rest from by simp [serArr]]
        have hx := parseF_value_ser fuel x (']' :: rest) hxsz (by simp [headDigit])
        simp [hx, skipWs_cons_not, isWs, headIs]
      | cons y t' =>
        rw [show serArr (x :: y :: t') ++ ']' :: rest
            = serialize x ++ ',' :: ' ' :: (serArr (y :: t') ++ ']' :: rest) from by
          simp [serArr]]
        have hx := parseF_value_ser fuel x (',' :: ' ' :: (serArr (y :: t') ++ ']' :: rest)) hxsz
          (by simp [headDigit])
        have hsl : Json.sizeL (y :: t') ≤ fuel := by
          have hxp := Json.size_pos x
          have hlink : Json.sizeL (y :: t') = 1 + Json.size y + Json.sizeL t' := by
            simp [Json.sizeL]
          simp only [Json.sizeL] at hsz
          omega
        have hskip : parseF fuel PMode.elems (' ' :: (serArr (y :: t') ++ ']' :: rest))
            = some (Json.arr (y :: t'), rest) := by
          rw [parseF_elems_ws fuel (by decide)]
          exact parseF_elems_ser fuel (y :: t') rest (by simp) hsl
        simp [hx, hskip, skipWs_cons_not, isWs, headIs]

termination_by fuel _ _ => fuel

/-- Round trip for nonempty object member lists. -/
theorem parseF_membs_ser : ∀ (fuel : Nat) (kvs : List (String × Json)) (rest : List Char),
    kvs ≠ [] → Json.sizeKV kvs ≤ fuel →
    parseF fuel .membs (serObj kvs ++ '}' :: rest) = some (Json.obj kvs, rest)
  | 0, kvs, rest => by
    intro hne hsz
    have := Json.sizeKV_pos hne
    omega
  | fuel + 1, kvs, rest => by
    intro hne hsz
    cases kvs with
    | nil => exact absurd rfl hne
    | cons kv t =>
      obtain ⟨k, v⟩ := kv
      have hvsz : Json.size v ≤ fuel := by
        simp only [Json.sizeKV] at hsz
        omega
      rw [parseF_membs_eq]
      cases t with
      | nil =>
        rw [show serObj [(k, v)] ++ '}' :: rest
            = '"' :: (escapeList k.data ++ '"' :: (':' :: ' ' :: (serialize v ++ '}' :: rest)))
            from by simp [serObj, serStr]]
        have hv : parseF fuel PMode.value (' ' :: (serialize v ++ '}' :: rest))
            = some (v, '}' :: rest) := by
          rw [parseF_value_ws fuel (by decide)]
          exact parseF_value_ser fuel v ('}' :: rest) hvsz (by simp [headDigit])
        simp [parseStrChars_escape, hv, skipWs_cons_not, isWs, headIs]
      | cons p t' =>
        rw [show serObj ((k, v) :: p :: t') ++ '}' :: rest
            = '"' :: (escapeList k.data ++ '"' :: (':' :: ' ' ::
              (serialize v ++ ',' :: ' ' :: (serObj (p :: t') ++ '}' :: rest))))
            from by simp [serObj, serStr]]
        have hv : parseF fuel PMode.value
            (' ' :: (serialize v ++ ',' :: ' ' :: (serObj (p :: t') ++ '}' :: rest)))
            = some (v, ',' :: ' ' :: (serObj (p :: t') ++ '}' :: rest)) := by
          rw [parseF_value_ws fuel (by decide)]
          exact parseF_value_ser fuel v _ hvsz (by simp [headDigit])
        have hsl : Json.sizeKV (p :: t') ≤ fuel := by
          have hp := Json.size_pos v
          have hlink : Json.sizeKV (p :: t') = 1 + Json.size p.2 + Json.sizeKV t' := by
            obtain ⟨a, b⟩ := p
            simp [Json.sizeKV]
          simp only [Json.sizeKV] at hsz
          omega
        have hrec : parseF fuel PMode.membs (' ' :: (serObj (p :: t') ++ '}' :: rest))
            = some (Json.obj (p :: t'), rest) := by
          rw [parseF_membs_ws fuel (by decide)]
          exact parseF_membs_ser fuel (p :: t') rest (by simp) hsl
        simp [parseStrChars_escape, hv, hrec, skipWs_cons_not, isWs, headIs]
termination_by fuel _ _ => fuel
end

/-- Round trip of the full document parser: parsing a serialized value
recovers the value. -/
theorem jsonLoads_serialize (v : Json) : jsonLoads ⟨serialize v⟩ = some v := by
  have hfuel : Json.size v ≤ (serialize v).length + 1 := size_le_ser v
  have h := parseF_value_ser ((serialize v).length + 1) v [] hfuel (by simp [headDigit])
  simp only [List.append_nil] at h
  simp [jsonLoads, parseValue, h, skipWs]

/-!
Lemmas: `replaceAll` (fence stripping).
-/

theorem replaceAllF_irrel :
    ∀ (n : Nat) (cs : List Char), cs.length ≤ n →
      ∀ (f1 f2 : Nat) (pat rep : List Char), cs.length ≤ f1 → cs.length ≤ f2 →
        replaceAllF f1 pat rep cs = replaceAllF f2 pat rep cs := by
  intro n
  induction n with
  | zero =>
    intro cs hc f1 f2 pat rep h1 h2
    have : cs = [] := List.eq_nil_of_length_eq_zero (by omega)
    subst this
    cases f1 <;> cases f2 <;> simp [replaceAllF]
  | succ m IH =>
    intro cs hc f1 f2 pat rep h1 h2
    cases cs with
    | nil => cases f1 <;> cases f2 <;> simp [replaceAllF]
    | cons c t =>
      have hl : (c :: t).length = t.length + 1 := by simp
      match f1, f2 with
      | g1 + 1, g2 + 1 =>
        simp only [replaceAllF]
        by_cases hp : (pat.isPrefixOf (c :: t) && !pat.isEmpty) = true
        · rw [if_pos hp, if_pos hp]
          have hpat : pat ≠ [] := by
            intro hnil
            subst hnil
            simp at hp
          have hlen : 1 ≤ pat.length := by
            cases pat with
            | nil => exact absurd rfl hpat
            | cons a b => simp
          have hdrop : ((c :: t).drop pat.length).length ≤ m := by
            simp only [List.length_drop]
            omega
          rw [IH _ hdrop g1 g2 pat rep (by simp at hdrop ⊢; omega) (by simp at hdrop ⊢; omega)]
        · rw [if_neg hp, if_neg hp]
          have ht : t.length ≤ m := by simp at hc; omega
          rw [IH t ht g1 g2 pat rep (by omega) (by omega)]

theorem replaceAll_nil (pat rep : List Char) : replaceAll pat rep [] = [] := by
  simp [replaceAll, replaceAllF]

theorem replaceAll_cons_step {pat : List Char} (rep : List Char) {c : Char} {cs : List Char}
    (h : pat.isPrefixOf (c :: cs) = false) :
    replaceAll pat rep (c :: cs) = c :: replaceAll pat rep cs := by
  simp [replaceAll, replaceAllF, h]

theorem isPrefixOf_append_self (l t : List Char) : l.isPrefixOf (l ++ t) = true := by
  induction l with
  | nil => simp [List.isPrefixOf]
  | cons a b ih => simp [List.isPrefixOf, ih]

theorem replaceAll_append_hit {pat : List Char} (hne : pat ≠ []) (rep ys : List Char) :
    replaceAll pat rep (pat ++ ys) = rep ++ replaceAll pat rep ys := by
  obtain ⟨p, ps, hpat⟩ := List.exists_cons_of_ne_nil hne
  subst hpat
  have hemp : ((p :: ps).isEmpty : Bool) = false := by simp
  have hpre := isPrefixOf_append_self (p :: ps) ys
  show replaceAllF ((p :: ps) ++ ys).length (p :: ps) rep ((p :: ps) ++ ys) = _
  have hcons : (p :: ps) ++ ys = p :: (ps ++ ys) := by simp
  rw [hcons]
  have hlen : (p :: (ps ++ ys)).length = ps.length + ys.length + 1 := by simp
  rw [hlen]
  simp only [replaceAllF]
  rw [if_pos (by rw [← hcons] at *; simp [hpre, hemp])]
  have hdrop : (p :: (ps ++ ys)).drop (p :: ps).length = ys := by
    rw [← hcons]
    exact List.drop_left (p :: ps) ys
  rw [hdrop]
  rw [replaceAllF_irrel (ps.length + ys.length) ys (by omega)
    (ps.length + ys.length) ys.length (p :: ps) rep (by omega) (by omega)]
  rfl

theorem replaceAll_append_skip {p : Char} (ps rep : List Char) :
    ∀ (xs ys : List Char), p ∉ xs →
      replaceAll (p :: ps) rep (xs ++ ys) = xs ++ replaceAll (p :: ps) rep ys := by
  intro xs
  induction xs with
  | nil => simp
  | cons c t ih =>
    intro ys hmem
    have hpc : p ≠ c := by
      intro he
      exact hmem (by simp [he])
    have hpre : (p :: ps).isPrefixOf (c :: (t ++ ys)) = false := by
      simp [List.isPrefixOf]
      intro he
      exact absurd he hpc
    rw [List.cons_append, replaceAll_cons_step rep hpre, ih ys (fun hm => hmem (by simp [hm]))]
    simp

/-!
Lemmas: brace spans.
-/

theorem keepToLastClose_none_iff (cs : List Char) :
    keepToLastClose cs = none ↔ '}' ∉ cs := by
  induction cs with
  | nil => simp [keepToLastClose]
  | cons c t ih =>
    cases hk : keepToLastClose t with
    | some t' =>
      have hmem : '}' ∈ t := by
        by_contra hnot
        rw [ih.mpr hnot] at hk
        cases hk
      simp [keepToLastClose, hk, hmem]
    | none =>
      have hnot : '}' ∉ t := ih.mp hk
      by_cases hc : c = '}'
      · subst hc
        simp [keepToLastClose, hk]
      · have : ¬ '}' = c := fun he => hc he.symm
        simp [keepToLastClose, hk, hc, hnot, this]

theorem hasBracePair_no_close {cs : List Char} (h : '}' ∉ cs) : hasBracePair cs = false := by
  induction cs with
  | nil => simp [hasBracePair]
  | cons c t ih =>
    have hnt : '}' ∉ t := fun hm => h (by simp [hm])
    have hco : t.contains '}' = false := by
      simp [List.contains]
      intro hm
      exact absurd hm hnt
    by_cases hc : c = '{'
    · subst hc
      simp [hasBracePair, hco, ih hnt, hnt]
    · simp [hasBracePair, hc, ih hnt]

theorem braceSpan_none_iff (cs : List Char) :
    braceSpan cs = none ↔ hasBracePair cs = false := by
  induction cs with
  | nil => simp [braceSpan, keepToLastClose, hasBracePair]
  | cons c t ih =>
    cases hk : keepToLastClose t with
    | some t' =>
      have hmem : '}' ∈ t := by
        by_contra hnot
        rw [(keepToLastClose_none_iff t).mpr hnot] at hk
        cases hk
      have hco : t.contains '}' = true := by
        simp [List.contains]
        exact hmem
      by_cases hc : c = '{'
      · subst hc
        have hspan : braceSpan ('{' :: t) = some ('{' :: t') := by
          simp [braceSpan, keepToLastClose, hk, dropToOpen]
        have hbp : hasBracePair ('{' :: t) = true := by
          rw [show hasBracePair ('{' :: t) = (t.contains '}' || hasBracePair t) from by
            simp [hasBracePair]]
          rw [hco]
          simp
        simp [hspan, hbp]
      · have hspan : braceSpan (c :: t) = braceSpan t := by
          simp [braceSpan, keepToLastClose, hk, dropToOpen, hc]
        rw [hspan, show hasBracePair (c :: t) = hasBracePair t from by
          simp [hasBracePair, hc]]
        exact ih
    | none =>
      have hnot : '}' ∉ t := (keepToLastClose_none_iff t).mp hk
      have hbp : hasBracePair t = false := hasBracePair_no_close hnot
      have hco : t.contains '}' = false := by
        simp [List.contains]
        intro hm
        exact absurd hm hnot
      by_cases hc : c = '}'
      · subst hc
        have hspan : braceSpan ('}' :: t) = none := by
          simp [braceSpan, keepToLastClose, hk, dropToOpen]
        have hbp2 : hasBracePair ('}' :: t) = hasBracePair t := by
          simp [hasBracePair]
        simp [hspan, hbp2, hbp]
      · have hspan : braceSpan (c :: t) = none := by
          simp [braceSpan, keepToLastClose, hk, hc]
        by_cases hc2 : c = '{'
        · subst hc2
          simp [hspan, hasBracePair, hco, hbp, hnot]
        · simp [hspan, hasBracePair, hc2, hbp]

theorem hasBracePair_iff (cs : List Char) :
    hasBracePair cs = true ↔ ∃ p m q, cs = p ++ '{' :: (m ++ '}' :: q) := by
  induction cs with
  | nil => simp [hasBracePair]
  | cons c t ih =>
    constructor
    · intro h
      by_cases hc : c = '{'
      · subst hc
        rw [show hasBracePair ('{' :: t) = (t.contains '}' || hasBracePair t) from by
          simp [hasBracePair]] at h
        rcases Bool.or_eq_true_iff.mp h with hco | hbp
        · have hmem : '}' ∈ t := by
            simpa [List.contains] using hco
          obtain ⟨m, q, hmq⟩ := List.append_of_mem hmem
          exact ⟨[], m, q, by simp [hmq]⟩
        · obtain ⟨p, m, q, hpq⟩ := ih.mp hbp
          exact ⟨'{' :: p, m, q, by simp [hpq]⟩
      · rw [show hasBracePair (c :: t) = hasBracePair t from by simp [hasBracePair, hc]] at h
        obtain ⟨p, m, q, hpq⟩ := ih.mp h
        exact ⟨c :: p, m, q, by simp [hpq]⟩
    · rintro ⟨p, m, q, hpq⟩
      cases p with
      | nil =>
        simp at hpq
        obtain ⟨hc, ht⟩ := hpq
        subst hc
        have hmem : '}' ∈ t := by simp [ht]
        have hco : t.contains '}' = true := by
          simp [List.contains]
          exact hmem
        rw [show hasBracePair ('{' :: t) = (t.contains '}' || hasBracePair t) from by
          simp [hasBracePair]]
        rw [hco]
        simp
      | cons a p' =>
        simp at hpq
        obtain ⟨hac, ht⟩ := hpq
        subst hac
        have hbp : hasBracePair t = true := ih.mpr ⟨p', m, q, ht⟩
        by_cases hc : c = '{'
        · subst hc
          simp [hasBracePair, hbp]
        · simp [hasBracePair, hc, hbp]

theorem hasBracePair_append_free :
    ∀ (xs ys : List Char), '{' ∉ xs → hasBracePair (xs ++ ys) = hasBracePair ys := by
  intro xs
  induction xs with
  | nil => simp
  | cons c t ih =>
    intro ys hmem
    have hc : ¬ c = '{' := fun he => hmem (by simp [he])
    rw [List.cons_append, show hasBracePair (c :: (t ++ ys)) = hasBracePair (t ++ ys) from by
      simp [hasBracePair, hc]]
    exact ih ys (fun hm => hmem (by simp [hm]))

theorem contains_replaceAll (pat : List Char) (hne : pat ≠ []) (hp : '}' ∉ pat) :
    ∀ (n : Nat) (cs : List Char), cs.length ≤ n →
      (replaceAll pat [] cs).contains '}' = cs.contains '}' := by
  intro n
  induction n with
  | zero =>
    intro cs hc
    have : cs = [] := List.eq_nil_of_length_eq_zero (by omega)
    subst this
    rw [replaceAll_nil]
  | succ m IH =>
    intro cs hc
    by_cases hpre : pat.isPrefixOf cs = true
    · obtain ⟨ys, hys⟩ := (List.isPrefixOf_iff_prefix.mp hpre)
      subst hys
      rw [replaceAll_append_hit hne [] ys, List.nil_append]
      have hply : 1 ≤ pat.length := by
        cases pat with
        | nil => exact absurd rfl hne
        | cons a b => simp
      rw [IH ys (by simp at hc; omega)]
      by_cases hm : '}' ∈ ys
      · simp [List.contains, hm]
      · simp [List.contains, hm, hp]
    · cases cs with
      | nil => rw [replaceAll_nil]
      | cons c t =>
        have hpre2 : pat.isPrefixOf (c :: t) = false := by
          rw [← Bool.not_eq_true]
          exact hpre
        rw [replaceAll_cons_step [] hpre2]
        simp only [List.contains_cons]
        rw [IH t (by simp at hc; omega)]

theorem hasBracePair_replaceAll (pat : List Char) (hne : pat ≠ [])
    (hpo : '{' ∉ pat) (hpc : '}' ∉ pat) :
    ∀ (n : Nat) (cs : List Char), cs.length ≤ n →
      hasBracePair (replaceAll pat [] cs) = hasBracePair cs := by
  intro n
  induction n with
  | zero =>
    intro cs hc
    have : cs = [] := List.eq_nil_of_length_eq_zero (by omega)
    subst this
    rw [replaceAll_nil]
  | succ m IH =>
    intro cs hc
    by_cases hpre : pat.isPrefixOf cs = true
    · obtain ⟨ys, hys⟩ := (List.isPrefixOf_iff_prefix.mp hpre)
      subst hys
      rw [replaceAll_append_hit hne [] ys, List.nil_append]
      have hply : 1 ≤ pat.length := by
        cases pat with
        | nil => exact absurd rfl hne
        | cons a b => simp
      rw [IH ys (by simp at hc; omega)]
      rw [hasBracePair_append_free pat ys hpo]
    · cases cs with
      | nil => rw [replaceAll_nil]
      | cons c t =>
        have hpre2 : pat.isPrefixOf (c :: t) = false := by
          rw [← Bool.not_eq_true]
          exact hpre
        rw [replaceAll_cons_step [] hpre2]
        have hlen : t.length ≤ m := by simp at hc; omega
        by_cases hco : c = '{'
        · subst hco
          rw [show hasBracePair ('{' :: replaceAll pat [] t)
              = ((replaceAll pat [] t).contains '}' || hasBracePair (replaceAll pat [] t))
            from by simp [hasBracePair]]
          rw [show hasBracePair ('{' :: t) = (t.contains '}' || hasBracePair t) from by
            simp [hasBracePair]]
          rw [contains_replaceAll pat hne hpc t.length t (le_refl _), IH t hlen]
        · rw [show hasBracePair (c :: replaceAll pat [] t) = hasBracePair (replaceAll pat [] t)
            from by simp [hasBracePair, hco]]
          rw [show hasBracePair (c :: t) = hasBracePair t from by simp [hasBracePair, hco]]
          exact IH t hlen

theorem keepToLastClose_append_no :
    ∀ (xs ys : List Char), '}' ∉ ys → keepToLastClose (xs ++ ys) = keepToLastClose xs := by
  intro xs
  induction xs with
  | nil =>
    intro ys hys
    rw [List.nil_append, (keepToLastClose_none_iff ys).mpr hys]
    rfl
  | cons c t ih =>
    intro ys hys
    rw [List.cons_append]
    rw [show keepToLastClose (c :: (t ++ ys)) = (match keepToLastClose (t ++ ys) with
      | some u => some (c :: u)
      | none => if c = '}' then some [c] else none) from by simp [keepToLastClose]]
    rw [show keepToLastClose (c :: t) = (match keepToLastClose t with
      | some u => some (c :: u)
      | none => if c = '}' then some [c] else none) from by simp [keepToLastClose]]
    rw [ih ys hys]

theorem keepToLastClose_append_close :
    ∀ (zs : List Char), keepToLastClose (zs ++ ['}']) = some (zs ++ ['}']) := by
  intro zs
  induction zs with
  | nil => rfl
  | cons c t ih =>
    rw [List.cons_append]
    rw [show keepToLastClose (c :: (t ++ ['}'])) = (match keepToLastClose (t ++ ['}']) with
      | some u => some (c :: u)
      | none => if c = '}' then some [c] else none) from by simp [keepToLastClose]]
    rw [ih]

theorem dropToOpen_append_skip :
    ∀ (xs ys : List Char), '{' ∉ xs → dropToOpen (xs ++ ys) = dropToOpen ys := by
  intro xs
  induction xs with
  | nil => simp
  | cons c t ih =>
    intro ys hmem
    have hc : ¬ c = '{' := fun he => hmem (by simp [he])
    rw [List.cons_append, show dropToOpen (c :: (t ++ ys)) = dropToOpen (t ++ ys) from by
      simp [dropToOpen, hc]]
    exact ih ys (fun hm => hmem (by simp [hm]))

theorem dropToOpen_cons_open (t : List Char) : dropToOpen ('{' :: t) = some ('{' :: t) := by
  simp [dropToOpen]

/-!
Claim theorems.
-/

theorem idsFrom_eq_range (n : Nat) : ∀ (s : Nat), idsFrom s n = List.range' (s + 1) n := by
  induction n with
  | zero => intro s; rfl
  | succ m ih =>
    intro s
    rw [show idsFrom s (m + 1) = (s + 1) :: idsFrom (s + 1) m from by simp [idsFrom, nextId]]
    rw [ih (s + 1), List.range'_succ]

/-- Claim C7: the request-id generator is a process-wide counter whose first
issued id is 1, strictly monotonically increasing across all requests, so
within one process lifetime no id is issued twice. -/
theorem claimC7 (n : Nat) :
    (issuedIds n).head? = (if 0 < n then some 1 else none)
      ∧ (issuedIds n).Pairwise (· < ·)
      ∧ (issuedIds n).Nodup := by
  have h : issuedIds n = List.range' 1 n := idsFrom_eq_range n 0
  refine ⟨?_, ?_, ?_⟩
  · rw [h]
    cases n with
    | zero => simp
    | succ m => simp [List.range'_succ]
  · rw [h]
    exact List.pairwise_lt_range' 1 n
  · rw [h]
    exact List.nodup_range' 1 n

/-- Claim C8: on every exit path of `main` (normal return or error), the
cleanup runs: the child is terminated, waited on for one time unit, and
force-killed when it has not exited by then; either way it does not remain
running, independently of the body's outcome. -/
theorem claimC8 (body : Except TCErr Unit) (c : Child) :
    (runWithCleanup body c).2 = cleanup c
      ∧ (runWithCleanup body c).1 = body
      ∧ cleanup c ≠ ChildFate.running
      ∧ (c.exitDelay ≤ 1 ↔ cleanup c = ChildFate.exited)
      ∧ (1 < c.exitDelay ↔ cleanup c = ChildFate.killed) := by
  refine ⟨rfl, rfl, ?_, ?_, ?_⟩
  · unfold cleanup
    by_cases h : c.exitDelay ≤ 1 <;> simp [h]
  · unfold cleanup
    by_cases h : c.exitDelay ≤ 1 <;> simp [h]
  · unfold cleanup
    by_cases h : c.exitDelay ≤ 1
    · simp [h]
    · simp [h]
      omega

theorem idMatches_iff (rid : Int) (m : Json) :
    idMatches rid m = true ↔ getField m "id" = some (Json.num rid) := by
  unfold idMatches
  cases hg : getField m "id" with
  | none => simp
  | some j => cases j <;> simp [beq_iff_eq]

/-- Claim C1: the send/receive loop of a call returns only a response whose
`id` equals the issued request id; every message before it in the stream is
discarded and is either a notification (no `id`, so `getField _ "id"` is
`none`) or bears a different id. -/
theorem claimC1 (rid : Int) (msgs : List Json) (r : Json)
    (h : matchResponse rid msgs = some r) :
    getField r "id" = some (Json.num rid)
      ∧ ∃ pre suf, msgs = pre ++ r :: suf
          ∧ ∀ m ∈ pre, getField m "id" ≠ some (Json.num rid) := by
  induction msgs with
  | nil => cases h
  | cons m ms ih =>
    by_cases him : idMatches rid m = true
    · rw [show matchResponse rid (m :: ms) = some m from by simp [matchResponse, him]] at h
      injection h with h
      subst h
      exact ⟨(idMatches_iff rid m).mp him, [], ms, rfl, by simp⟩
    · rw [show matchResponse rid (m :: ms) = matchResponse rid ms from by
        simp [matchResponse, him]] at h
      obtain ⟨hid, pre, suf, hsplit, hpre⟩ := ih h
      refine ⟨hid, m :: pre, suf, by simp [hsplit], ?_⟩
      intro x hx
      rcases List.mem_cons.mp hx with hx | hx
      · subst hx
        intro hgx
        exact him ((idMatches_iff rid x).mpr hgx)
      · exact hpre x hx

/-- Witness for C1: a concrete stream with a notification and a mismatched
response before the matching one. -/
theorem claimC1_witness :
    getField (Json.obj [("id", Json.num 1), ("result", Json.obj [])]) "id"
        = some (Json.num 1)
      ∧ ∃ pre suf,
        [Json.obj [("method", Json.str "note")], Json.obj [("id", Json.num 2)],
         Json.obj [("id", Json.num 1), ("result", Json.obj [])]]
          = pre ++ (Json.obj [("id", Json.num 1), ("result", Json.obj [])]) :: suf
          ∧ ∀ m ∈ pre, getField m "id" ≠ some (Json.num 1) :=
  claimC1 1 _ _ rfl

/-- Claim C9: when the matching response carries no `"result"` key (for
example an error response), `tools_call` returns the empty mapping as a
success; nothing is raised or distinguished. -/
theorem claimC9 (kvs : List (String × Json)) (h : lookupKV kvs "result" = none) :
    toolsCallUnwrap (Json.obj kvs) = .ok (Json.obj []) := by
  simp [toolsCallUnwrap, getField, h, lookupKV]

/-- Witness for C9: an error response is turned into a successful empty
mapping. -/
theorem claimC9_witness :
    toolsCallUnwrap (Json.obj [("jsonrpc", Json.str "2.0"), ("id", Json.num 1),
        ("error", Json.obj [("code", Json.num (-32600)),
                            ("message", Json.str "Invalid Request")])])
      = .ok (Json.obj []) :=
  claimC9 _ rfl

/-- Claim C10: a matching response whose first content block has type
`"text"` but a text payload that is not valid JSON makes `tools_call` raise
the uncaught JSON-decoding error, not `Timeout` and not `ProtocolError`. -/
theorem claimC10 (resp result block : Json) (blocks : List Json) (t : String)
    (h1 : getField resp "result" = some result)
    (h2 : getField result "content" = some (Json.arr (block :: blocks)))
    (h3 : getField block "type" = some (Json.str "text"))
    (h4 : getField block "text" = some (Json.str t))
    (h5 : jsonLoads t = none) :
    toolsCallUnwrap resp = .error (.jsonDecodeError t)
      ∧ toolsCallUnwrap resp ≠ .error .timeout
      ∧ toolsCallUnwrap resp ≠ .error .protocolError := by
  have hmain : toolsCallUnwrap resp = .error (.jsonDecodeError t) := by
    simp [toolsCallUnwrap, h1, h2, h3, h4, h5]
  refine ⟨hmain, ?_, ?_⟩
  · rw [hmain]
    intro hcon
    injection hcon with hcon
    cases hcon
  · rw [hmain]
    intro hcon
    injection hcon with hcon
    cases hcon

/-- Witness for C10: a concrete malformed text block. -/
theorem claimC10_witness :
    toolsCallUnwrap (Json.obj [("jsonrpc", Json.str "2.0"), ("id", Json.num 3),
        ("result", Json.obj [("content", Json.arr [Json.obj [("type", Json.str "text"),
          ("text", Json.str "not json")]])])])
      = .error (.jsonDecodeError "not json")
      ∧ toolsCallUnwrap (Json.obj [("jsonrpc", Json.str "2.0"), ("id", Json.num 3),
          ("result", Json.obj [("content", Json.arr [Json.obj [("type", Json.str "text"),
            ("text", Json.str "not json")]])])])
        ≠ .error .timeout
      ∧ toolsCallUnwrap (Json.obj [("jsonrpc", Json.str "2.0"), ("id", Json.num 3),
          ("result", Json.obj [("content", Json.arr [Json.obj [("type", Json.str "text"),
            ("text", Json.str "not json")]])])])
        ≠ .error .protocolError :=
  claimC10 _ _ _ [] "not json" rfl rfl rfl rfl rfl

theorem jsonLoads_empty {s : String} (h : s.data.isEmpty = true) : jsonLoads s = none := by
  have hnil : s.data = [] := by
    cases hd : s.data with
    | nil => rfl
    | cons a b => rw [hd] at h; simp at h
  simp [jsonLoads, parseValue, hnil, parseF_value_eq, skipWs]

/-- Claim C4: when every line of the trace is blank or unparseable and the
trace reaches the timeout window's end, `recv` raises `TimeoutError`; and
whenever it raises, the elapsed time observed at the raising check is at
least the timeout, never less.  `recv` itself runs with the default timeout
of 10 time units. -/
theorem claimC4 (timeout : Nat) (trace : List (Nat × String)) :
    ((∀ p ∈ trace, (pyStrip p.2).data.isEmpty = true ∨ jsonLoads (pyStrip p.2) = none) →
      (∃ p ∈ trace, timeout ≤ p.1) →
      ∃ t, recvGo timeout trace = some (.timeoutAt t) ∧ timeout ≤ t)
      ∧ (∀ t, recvGo timeout trace = some (.timeoutAt t) → timeout ≤ t)
      ∧ recv trace = recvGo 10 trace := by
  refine ⟨?_, ?_, rfl⟩
  · intro hjunk hreach
    induction trace with
    | nil =>
      obtain ⟨p, hp, _⟩ := hreach
      cases hp
    | cons q rest ih =>
      obtain ⟨tq, lq⟩ := q
      by_cases ht : tq < timeout
      · have hq := hjunk (tq, lq) (by simp)
        have hrest : ∀ p ∈ rest, (pyStrip p.2).data.isEmpty = true
            ∨ jsonLoads (pyStrip p.2) = none := by
          intro p hp
          exact hjunk p (by simp [hp])
        have hreach2 : ∃ p ∈ rest, timeout ≤ p.1 := by
          obtain ⟨p, hp, hple⟩ := hreach
          rcases List.mem_cons.mp hp with hp | hp
          · subst hp
            simp at hple
            omega
          · exact ⟨p, hp, hple⟩
        obtain ⟨t, hrec, htle⟩ := ih hrest hreach2
        rcases hq with hq | hq
        · exact ⟨t, by simp [recvGo, ht, hq, hrec], htle⟩
        · by_cases hemp : (pyStrip lq).data.isEmpty = true
          · exact ⟨t, by simp [recvGo, ht, hemp, hrec], htle⟩
          · exact ⟨t, by simp [recvGo, ht, hemp, hq, hrec], htle⟩
      · exact ⟨tq, by simp [recvGo, ht], by omega⟩
  · intro t
    induction trace with
    | nil => intro h; cases h
    | cons q rest ih =>
      obtain ⟨tq, lq⟩ := q
      intro h
      by_cases ht : tq < timeout
      · by_cases hemp : (pyStrip lq).data.isEmpty = true
        · rw [show recvGo timeout ((tq, lq) :: rest) = recvGo timeout rest from by
            simp [recvGo, ht, hemp]] at h
          exact ih h
        · cases hl : jsonLoads (pyStrip lq) with
          | some j =>
            rw [show recvGo timeout ((tq, lq) :: rest) = some (.msg j) from by
              simp [recvGo, ht, hemp, hl]] at h
            injection h with h
            cases h
          | none =>
            rw [show recvGo timeout ((tq, lq) :: rest) = recvGo timeout rest from by
              simp [recvGo, ht, hemp, hl]] at h
            exact ih h
      · rw [show recvGo timeout ((tq, lq) :: rest) = some (.timeoutAt tq) from by
          simp [recvGo, ht]] at h
        injection h with h
        injection h with h
        omega

/-- Witness for C4: a trace with one unparseable line, then a read observed
after the window; the timeout fires at elapsed time 11 ≥ 10. -/
theorem claimC4_witness :
    ∃ t, recvGo 10 [(0, "oops"), (11, "")] = some (RecvOutcome.timeoutAt t) ∧ 10 ≤ t :=
  (claimC4 10 [(0, "oops"), (11, "")]).1
    (by
      intro p hp
      rcases List.mem_cons.mp hp with hp | hp
      · subst hp
        right
        rfl
      · rcases List.mem_cons.mp hp with hp | hp
        · subst hp
          left
          rfl
        · cases hp)
    ⟨(11, ""), by simp, by norm_num⟩

/-- Claim C5: blank lines and unparseable lines arriving within the window
are skipped, and the first valid JSON line is parsed and returned. -/
theorem claimC5 (timeout : Nat) (junk : List (Nat × String)) (t : Nat) (line : String)
    (j : Json) (trailing : List (Nat × String))
    (hjunk : ∀ p ∈ junk, p.1 < timeout ∧
      ((pyStrip p.2).data.isEmpty = true ∨ jsonLoads (pyStrip p.2) = none))
    (ht : t < timeout) (hj : jsonLoads (pyStrip line) = some j) :
    recvGo timeout (junk ++ (t, line) :: trailing) = some (.msg j) := by
  induction junk with
  | nil =>
    have hemp : (pyStrip line).data.isEmpty = false := by
      cases he : (pyStrip line).data.isEmpty with
      | false => rfl
      | true => rw [jsonLoads_empty he] at hj; cases hj
    simp [recvGo, ht, hemp, hj]
  | cons q rest ih =>
    obtain ⟨tq, lq⟩ := q
    obtain ⟨htq, hq⟩ := hjunk (tq, lq) (by simp)
    have hrest : ∀ p ∈ rest, p.1 < timeout ∧
        ((pyStrip p.2).data.isEmpty = true ∨ jsonLoads (pyStrip p.2) = none) := by
      intro p hp
      exact hjunk p (by simp [hp])
    rcases hq with hq | hq
    · simp [recvGo, htq, hq, ih hrest]
    · by_cases hemp : (pyStrip lq).data.isEmpty = true
      · simp [recvGo, htq, hemp, ih hrest]
      · simp [recvGo, htq, hemp, hq, ih hrest]

/-- Witness for C5: a blank line and an unparseable line precede a valid
object line; the parsed empty object is returned. -/
theorem claimC5_witness :
    recvGo 10 [(0, ""), (1, "oops"), (2, "\x7b\x7d")] = some (RecvOutcome.msg (Json.obj [])) :=
  claimC5 10 [(0, ""), (1, "oops")] 2 "\x7b\x7d" (Json.obj []) []
    (by
      intro p hp
      rcases List.mem_cons.mp hp with hp | hp
      · subst hp
        exact ⟨by norm_num, Or.inl rfl⟩
      · rcases List.mem_cons.mp hp with hp | hp
        · subst hp
          exact ⟨by norm_num, Or.inr rfl⟩
        · cases hp)
    (by norm_num) rfl

/-- Claim C3: `tools_call("multiply", {a:3, b:7})` sends a `tools/call`
request carrying those arguments; the server's `multiply` answers the dict
whose summary is "3 × 7 = 21"; the tool host wraps it as a JSON-encoded
text block; and the caller receives the parsed mapping whose `summary`
equals "3 × 7 = 21". -/
theorem claimC3 (rid : Int) :
    toolsCallRequest rid "multiply" (Json.obj [("a", Json.num 3), ("b", Json.num 7)])
        = Json.obj [("jsonrpc", Json.str "2.0"), ("id", Json.num rid),
            ("method", Json.str "tools/call"),
            ("params", Json.obj [("name", Json.str "multiply"),
              ("arguments", Json.obj [("a", Json.num 3), ("b", Json.num 7)])])]
      ∧ multiply 3 7 = [("a", Json.num 3), ("b", Json.num 7), ("product", Json.num 21),
          ("summary", Json.str "3 × 7 = 21")]
      ∧ tools_call rid [fastMCPToolResponse rid (Json.obj (multiply 3 7))]
          = .ok (Json.obj (multiply 3 7))
      ∧ lookupKV (multiply 3 7) "summary" = some (Json.str "3 × 7 = 21") := by
  refine ⟨rfl, rfl, ?_, rfl⟩
  have hm : matchResponse rid [fastMCPToolResponse rid (Json.obj (multiply 3 7))]
      = some (fastMCPToolResponse rid (Json.obj (multiply 3 7))) := by
    simp [matchResponse, idMatches, getField, fastMCPToolResponse, lookupKV]
  rw [show tools_call rid [fastMCPToolResponse rid (Json.obj (multiply 3 7))]
      = toolsCallUnwrap (fastMCPToolResponse rid (Json.obj (multiply 3 7))) from by
    simp [tools_call, hm]]
  simp [toolsCallUnwrap, fastMCPToolResponse, getField, lookupKV, jsonLoads_serialize]

/-- Claim C6: `extract_json` fails with `NotFound` exactly when the input
has no substring starting with an opening brace and ending with a closing
brace; when the greedy brace span exists but does not parse, it fails with
`MalformedJson` carrying that offending span; in particular the input
consisting of an opening brace, "not json" and a closing brace fails with
`MalformedJson`. -/
theorem claimC6 :
    (∀ text : String,
        ((∃ s, extract_json text = .error (.notFound s)) ↔
          ¬ ∃ p m q, text.data = p ++ '{' :: (m ++ '}' :: q)))
      ∧ (∀ (text : String) (span : List Char),
          braceSpan (replaceAll ("```".data) [] (replaceAll ("```json".data) [] text.data))
              = some span →
          jsonLoads ⟨span⟩ = none →
          extract_json text = .error (.malformedJson ⟨span⟩))
      ∧ extract_json "\x7bnot json\x7d" = .error (.malformedJson "\x7bnot json\x7d") := by
  refine ⟨?_, ?_, rfl⟩
  · intro text
    have hbp : hasBracePair (replaceAll ("```".data) []
          (replaceAll ("```json".data) [] text.data))
        = hasBracePair text.data := by
      rw [hasBracePair_replaceAll ("```".data) (by decide) (by decide) (by decide) _ _ (le_refl _)]
      rw [hasBracePair_replaceAll ("```json".data) (by decide) (by decide) (by decide) _ _
        (le_refl _)]
    constructor
    · rintro ⟨s, hs⟩ hex
      have htrue : hasBracePair text.data = true := (hasBracePair_iff _).mpr hex
      cases hspan : braceSpan (replaceAll ("```".data) []
          (replaceAll ("```json".data) [] text.data)) with
      | none =>
        have hfalse := (braceSpan_none_iff _).mp hspan
        rw [hbp, htrue] at hfalse
        cases hfalse
      | some sp =>
        rw [show extract_json text = (match jsonLoads ⟨sp⟩ with
            | some v => .ok v
            | none => .error (.malformedJson ⟨sp⟩)) from by
          simp [extract_json, hspan]] at hs
        cases hl : jsonLoads (⟨sp⟩ : String) with
        | some v => rw [hl] at hs; cases hs
        | none => rw [hl] at hs; cases hs
    · intro hnex
      have hfalse : hasBracePair text.data = false := by
        cases hb : hasBracePair text.data with
        | false => rfl
        | true => exact absurd ((hasBracePair_iff _).mp hb) hnex
      have hspan : braceSpan (replaceAll ("```".data) []
          (replaceAll ("```json".data) [] text.data)) = none := by
        rw [braceSpan_none_iff, hbp]
        exact hfalse
      exact ⟨⟨replaceAll ("```".data) [] (replaceAll ("```json".data) [] text.data)⟩,
        by simp [extract_json, hspan]⟩
  · intro text span h1 h2
    simp [extract_json, h1, h2]

/-- Witness for C6: the malformed-span branch at a concrete bad input, and
the not-found branch at a brace-free input. -/
theorem claimC6_witness :
    extract_json "\x7bbad\x7d" = .error (.malformedJson "\x7bbad\x7d")
      ∧ (∃ s, extract_json "no braces here" = .error (.notFound s)) :=
  ⟨claimC6.2.1 "\x7bbad\x7d" ("\x7bbad\x7d".data) rfl rfl,
   (claimC6.1 "no braces here").mpr (by
    rintro ⟨p, m, q, hd⟩
    have htrue : hasBracePair ("no braces here".data) = true :=
      (hasBracePair_iff _).mpr ⟨p, m, q, hd⟩
    rw [show hasBracePair ("no braces here".data) = false from rfl] at htrue
    cases htrue)⟩

/-- The backtick character (written via its code point). -/
def btChar : Char := Char.ofNat 96

theorem replaceAll_cons_skip {p : Char} (ps rep : List Char) {c : Char} (hc : c ≠ p)
    (ys : List Char) :
    replaceAll (p :: ps) rep (c :: ys) = c :: replaceAll (p :: ps) rep ys := by
  apply replaceAll_cons_step
  simp [List.isPrefixOf]
  intro he
  exact absurd he.symm hc

theorem replaceAll_pat_nil (rep : List Char) : ∀ (cs : List Char), replaceAll [] rep cs = cs := by
  intro cs
  induction cs with
  | nil => rfl
  | cons c t ih =>
    have hstep : replaceAll [] rep (c :: t) = c :: replaceAll [] rep t := by
      simp [replaceAll, replaceAllF]
    rw [hstep, ih]

/-- Replacement by the empty string only deletes characters: every character
of the output occurs in the input. -/
theorem mem_replaceAll (pat : List Char) :
    ∀ (n : Nat) (cs : List Char), cs.length ≤ n → ∀ {c : Char},
      c ∈ replaceAll pat [] cs → c ∈ cs := by
  intro n
  induction n with
  | zero =>
    intro cs hc
    have : cs = [] := List.eq_nil_of_length_eq_zero (by omega)
    subst this
    rw [replaceAll_nil]
    intro c h
    exact h
  | succ m IH =>
    intro cs hc c hmem
    by_cases hpe : pat = []
    · subst hpe
      rwa [replaceAll_pat_nil] at hmem
    · by_cases hp : pat.isPrefixOf cs = true
      · obtain ⟨ys, hys⟩ := List.isPrefixOf_iff_prefix.mp hp
        subst hys
        rw [replaceAll_append_hit hpe [] ys, List.nil_append] at hmem
        have hply : 1 ≤ pat.length := by
          cases pat with
          | nil => exact absurd rfl hpe
          | cons a b => simp
        have : c ∈ ys := IH ys (by simp at hc; omega) hmem
        exact List.mem_append.mpr (Or.inr this)
      · cases cs with
        | nil => rwa [replaceAll_nil] at hmem
        | cons d t =>
          have hp2 : pat.isPrefixOf (d :: t) = false := by
            rw [← Bool.not_eq_true]
            exact hp
          rw [replaceAll_cons_step [] hp2] at hmem
          rcases List.mem_cons.mp hmem with h | h
          · simp [h]
          · exact List.mem_cons.mpr (Or.inr (IH t (by simp at hc; omega) h))

theorem isPrefixOf_through {y : Char} :
    ∀ (pat xs ys : List Char), y ∉ pat →
      pat.isPrefixOf (xs ++ y :: ys) = true → pat.isPrefixOf xs = true := by
  intro pat
  induction pat with
  | nil => intro xs ys _ _; simp [List.isPrefixOf]
  | cons a pat' ih =>
    intro xs ys hy h
    cases xs with
    | nil =>
      simp only [List.nil_append, List.isPrefixOf, Bool.and_eq_true, beq_iff_eq] at h
      exact absurd (by simp [h.1] : y ∈ a :: pat') hy
    | cons x xs' =>
      simp only [List.cons_append, List.isPrefixOf, Bool.and_eq_true, beq_iff_eq] at h ⊢
      exact ⟨h.1, ih xs' ys (fun hm => hy (by simp [hm])) h.2⟩

/-- A replacement pass cannot match across a character that does not occur
in the pattern: the text splits at such a character. -/
theorem replaceAll_split (pat rep : List Char) (hne : pat ≠ []) {y : Char} (hy : y ∉ pat) :
    ∀ (n : Nat) (X : List Char), X.length ≤ n → ∀ (R : List Char),
      replaceAll pat rep (X ++ y :: R)
        = replaceAll pat rep X ++ replaceAll pat rep (y :: R) := by
  intro n
  induction n with
  | zero =>
    intro X hX R
    have : X = [] := List.eq_nil_of_length_eq_zero (by omega)
    subst this
    simp [replaceAll_nil]
  | succ m IH =>
    intro X hX R
    cases X with
    | nil => simp [replaceAll_nil]
    | cons c t =>
      by_cases hp : pat.isPrefixOf (c :: t) = true
      · obtain ⟨Z, hZ⟩ := List.isPrefixOf_iff_prefix.mp hp
        have hply : 1 ≤ pat.length := by
          cases pat with
          | nil => exact absurd rfl hne
          | cons a b => simp
        have hZlen : Z.length ≤ m := by
          have := congrArg List.length hZ
          simp at this hX
          omega
        rw [← hZ, List.append_assoc]
        rw [replaceAll_append_hit hne rep (Z ++ y :: R)]
        rw [replaceAll_append_hit hne rep Z]
        rw [IH Z hZlen R]
        simp [List.append_assoc]
      · have hpc : pat.isPrefixOf (c :: (t ++ y :: R)) = false := by
          rw [← Bool.not_eq_true]
          intro hb
          exact hp (isPrefixOf_through pat (c :: t) R hy (by simpa using hb))
        have hp2 : pat.isPrefixOf (c :: t) = false := by
          rw [← Bool.not_eq_true]
          exact hp
        rw [List.cons_append, replaceAll_cons_step rep hpc, replaceAll_cons_step rep hp2]
        rw [IH t (by simp at hX; omega) R]
        simp

/-- Claim C2 (amended): wrapping the serialization of a JSON object in a
triple-backtick fenced block with arbitrary surrounding prose recovers the
object, provided the prose before the block contains no opening brace, the
prose after contains no closing brace, and the serialized object contains
no backtick.  The prose may contain backticks: fence stripping deletes
pattern occurrences but never adds, removes or moves a brace, and no
replacement can reach into the serialized object. -/
theorem claimC2 (kvs : List (String × Json)) (pre post : String)
    (hpre1 : '{' ∉ pre.data) (hpost1 : '}' ∉ post.data)
    (hser : btChar ∉ serialize (Json.obj kvs)) :
    extract_json (pre ++ "```json\n" ++ ⟨serialize (Json.obj kvs)⟩ ++ "\n```\n" ++ post)
      = .ok (Json.obj kvs) := by
  have hP1 : ("```json".data : List Char)
      = btChar :: [btChar, btChar, 'j', 's', 'o', 'n'] := rfl
  have hP2 : ("```".data : List Char) = btChar :: [btChar, btChar] := rfl
  have hserShape : serialize (Json.obj kvs) = ('{' :: serObj kvs) ++ ['}'] := by
    simp [serialize]
  have htext : (pre ++ "```json\n" ++ (⟨serialize (Json.obj kvs)⟩ : String)
        ++ "\n```\n" ++ post).data
      = (pre.data ++ ("```json\n").data)
        ++ '{' :: (serObj kvs
          ++ ('}' :: ('\n' :: (btChar :: (btChar :: (btChar :: ('\n' :: post.data))))))) := by
    rw [String.data_append, String.data_append, String.data_append, String.data_append]
    rw [show ("\n```\n" : String).data
        = '\n' :: (btChar :: (btChar :: (btChar :: ['\n']))) from rfl]
    rw [show (⟨serialize (Json.obj kvs)⟩ : String).data = serialize (Json.obj kvs) from rfl]
    rw [hserShape]
    simp [List.append_assoc]
  have h1 : replaceAll ("```json".data) []
        ((pre ++ "```json\n" ++ (⟨serialize (Json.obj kvs)⟩ : String)
          ++ "\n```\n" ++ post).data)
      = replaceAll ("```json".data) [] (pre.data ++ ("```json\n").data)
        ++ (serialize (Json.obj kvs)
          ++ ('\n' :: (btChar :: (btChar :: (btChar
            :: ('\n' :: replaceAll ("```json".data) [] post.data)))))) := by
    rw [htext]
    rw [replaceAll_split ("```json".data) [] (by decide) (by decide)
      (pre.data ++ ("```json\n").data).length (pre.data ++ ("```json\n").data) (le_refl _) _]
    congr 1
    rw [show '{' :: (serObj kvs
          ++ ('}' :: ('\n' :: (btChar :: (btChar :: (btChar :: ('\n' :: post.data)))))))
        = serialize (Json.obj kvs)
          ++ ('\n' :: (btChar :: (btChar :: (btChar :: ('\n' :: post.data)))))
      from by rw [hserShape]; simp [List.append_assoc]]
    rw [hP1]
    rw [replaceAll_append_skip [btChar, btChar, 'j', 's', 'o', 'n'] []
      (serialize (Json.obj kvs)) _ hser]
    rw [replaceAll_cons_skip _ [] (by decide) _]
    have hnp1 : (btChar :: [btChar, btChar, 'j', 's', 'o', 'n']).isPrefixOf
        (btChar :: (btChar :: (btChar :: ('\n' :: post.data)))) = false := by
      simp [List.isPrefixOf, btChar]
    have hnp2 : (btChar :: [btChar, btChar, 'j', 's', 'o', 'n']).isPrefixOf
        (btChar :: (btChar :: ('\n' :: post.data))) = false := by
      simp [List.isPrefixOf, btChar]
    have hnp3 : (btChar :: [btChar, btChar, 'j', 's', 'o', 'n']).isPrefixOf
        (btChar :: ('\n' :: post.data)) = false := by
      simp [List.isPrefixOf, btChar]
    rw [replaceAll_cons_step [] hnp1, replaceAll_cons_step [] hnp2, replaceAll_cons_step [] hnp3]
    rw [replaceAll_cons_skip _ [] (by decide) _]
  have h2 : replaceAll ("```".data) []
        (replaceAll ("```json".data) [] (pre.data ++ ("```json\n").data)
          ++ (serialize (Json.obj kvs)
            ++ ('\n' :: (btChar :: (btChar :: (btChar
              :: ('\n' :: replaceAll ("```json".data) [] post.data)))))))
      = replaceAll ("```".data) []
          (replaceAll ("```json".data) [] (pre.data ++ ("```json\n").data))
        ++ (serialize (Json.obj kvs)
          ++ ('\n' :: ('\n' :: replaceAll ("```".data) []
            (replaceAll ("```json".data) [] post.data)))) := by
    rw [show serialize (Json.obj kvs)
          ++ ('\n' :: (btChar :: (btChar :: (btChar
            :: ('\n' :: replaceAll ("```json".data) [] post.data)))))
        = '{' :: (serObj kvs ++ ('}' :: ('\n' :: (btChar :: (btChar :: (btChar
            :: ('\n' :: replaceAll ("```json".data) [] post.data)))))))
      from by rw [hserShape]; simp [List.append_assoc]]
    rw [replaceAll_split ("```".data) [] (by decide) (by decide)
      (replaceAll ("```json".data) [] (pre.data ++ ("```json\n").data)).length
      (replaceAll ("```json".data) [] (pre.data ++ ("```json\n").data)) (le_refl _) _]
    congr 1
    rw [show '{' :: (serObj kvs ++ ('}' :: ('\n' :: (btChar :: (btChar :: (btChar
            :: ('\n' :: replaceAll ("```json".data) [] post.data)))))))
        = serialize (Json.obj kvs) ++ ('\n' :: (btChar :: (btChar :: (btChar
            :: ('\n' :: replaceAll ("```json".data) [] post.data)))))
      from by rw [hserShape]; simp [List.append_assoc]]
    rw [hP2]
    rw [replaceAll_append_skip [btChar, btChar] [] (serialize (Json.obj kvs)) _ hser]
    rw [replaceAll_cons_skip _ [] (by decide) _]
    rw [show (btChar :: (btChar :: (btChar
          :: ('\n' :: replaceAll ("```json".data) [] post.data))))
        = (btChar :: [btChar, btChar])
          ++ ('\n' :: replaceAll ("```json".data) [] post.data) from rfl]
    rw [replaceAll_append_hit (by simp) [] _]
    rw [List.nil_append]
    rw [replaceAll_cons_skip _ [] (by decide) _]
  have hA2 : '{' ∉ replaceAll ("```".data) []
      (replaceAll ("```json".data) [] (pre.data ++ ("```json\n").data)) := by
    intro hm
    have hm1 := mem_replaceAll ("```".data) _ _ (le_refl _) hm
    have hm0 := mem_replaceAll ("```json".data) _ _ (le_refl _) hm1
    rcases List.mem_append.mp hm0 with h | h
    · exact hpre1 h
    · exact absurd h (by decide)
  have hp2post : '}' ∉ replaceAll ("```".data) []
      (replaceAll ("```json".data) [] post.data) := by
    intro hm
    have hm1 := mem_replaceAll ("```".data) _ _ (le_refl _) hm
    have hm0 := mem_replaceAll ("```json".data) _ _ (le_refl _) hm1
    exact hpost1 hm0
  have hkeep : keepToLastClose
        (replaceAll ("```".data) []
            (replaceAll ("```json".data) [] (pre.data ++ ("```json\n").data))
          ++ (serialize (Json.obj kvs)
            ++ ('\n' :: ('\n' :: replaceAll ("```".data) []
              (replaceAll ("```json".data) [] post.data)))))
      = some ((replaceAll ("```".data) []
            (replaceAll ("```json".data) [] (pre.data ++ ("```json\n").data))
          ++ '{' :: serObj kvs) ++ ['}']) := by
    rw [show replaceAll ("```".data) []
            (replaceAll ("```json".data) [] (pre.data ++ ("```json\n").data))
          ++ (serialize (Json.obj kvs)
            ++ ('\n' :: ('\n' :: replaceAll ("```".data) []
              (replaceAll ("```json".data) [] post.data))))
        = ((replaceAll ("```".data) []
              (replaceAll ("```json".data) [] (pre.data ++ ("```json\n").data))
            ++ '{' :: serObj kvs) ++ ['}'])
          ++ ('\n' :: ('\n' :: replaceAll ("```".data) []
            (replaceAll ("```json".data) [] post.data)))
      from by rw [hserShape]; simp [List.append_assoc]]
    rw [keepToLastClose_append_no _ _ (by
      intro hm
      rcases List.mem_cons.mp hm with hm | hm
      · cases hm
      · rcases List.mem_cons.mp hm with hm | hm
        · cases hm
        · exact hp2post hm)]
    exact keepToLastClose_append_close _
  have hdrop : dropToOpen ((replaceAll ("```".data) []
          (replaceAll ("```json".data) [] (pre.data ++ ("```json\n").data))
        ++ '{' :: serObj kvs) ++ ['}'])
      = some (serialize (Json.obj kvs)) := by
    rw [show (replaceAll ("```".data) []
            (replaceAll ("```json".data) [] (pre.data ++ ("```json\n").data))
          ++ '{' :: serObj kvs) ++ ['}']
        = replaceAll ("```".data) []
            (replaceAll ("```json".data) [] (pre.data ++ ("```json\n").data))
          ++ ('{' :: (serObj kvs ++ ['}'])) from by
      simp [List.append_assoc]]
    rw [dropToOpen_append_skip _ _ hA2]
    rw [dropToOpen_cons_open]
    rw [hserShape]
    simp
  have hspan : braceSpan
        (replaceAll ("```".data) []
            (replaceAll ("```json".data) [] (pre.data ++ ("```json\n").data))
          ++ (serialize (Json.obj kvs)
            ++ ('\n' :: ('\n' :: replaceAll ("```".data) []
              (replaceAll ("```json".data) [] post.data)))))
      = some (serialize (Json.obj kvs)) := by
    unfold braceSpan
    rw [hkeep]
    exact hdrop
  unfold extract_json
  rw [h1, h2]
  simp only [hspan, jsonLoads_serialize]

/-- Counterexample to C2 as stated: the prose after the fenced block is the
single character "}" (prose is arbitrary under the claim), the fenced body
is exactly the serialization of the object with key "a" and value 1, yet
extraction does not return that object — the greedy match extends to the
last closing brace inside the prose and the span no longer parses. -/
theorem claimC2_counterexample :
    serialize (Json.obj [("a", Json.num 1)]) = ("\x7b\"a\": 1\x7d" : String).data
      ∧ extract_json ("```json\n" ++ "\x7b\"a\": 1\x7d" ++ "\n```\n" ++ "\x7d")
        ≠ .ok (Json.obj [("a", Json.num 1)]) := by
  refine ⟨by simp [serialize, serObj, serStr, serInt, natToDigits, natToDigitsAux, digitChar,
    escapeList, escapeChar], ?_⟩
  intro h
  rw [show extract_json ("```json\n" ++ "\x7b\"a\": 1\x7d" ++ "\n```\n" ++ "\x7d")
      = .error (.malformedJson "\x7b\"a\": 1\x7d\n\n\x7d") from rfl] at h
  cases h

/-- Witness for the amended C2 at a concrete object, with prose on both
sides that contains backticks. -/
theorem claimC2_witness :
    extract_json ("see `raw` below: " ++ "```json\n"
        ++ (⟨serialize (Json.obj [("a", Json.num 1)])⟩ : String) ++ "\n```\n" ++ " and `x`")
      = .ok (Json.obj [("a", Json.num 1)]) :=
  claimC2 [("a", Json.num 1)] "see `raw` below: " " and `x`" (by decide) (by decide)
    (by
      rw [show serialize (Json.obj [("a", Json.num 1)]) = ("\x7b\"a\": 1\x7d" : String).data
        from by simp [serialize, serObj, serStr, serInt, natToDigits, natToDigitsAux, digitChar,
          escapeList, escapeChar]]
      decide)
